import Mathlib

/-!
Verification of the phonid library core (pattern-based mixed-radix codec,
Feistel network shuffler, configuration validator) against its
natural-language specification.  The Go sources are shallowly embedded:
Go `uint64` arithmetic is carried out on `Nat` with explicit reduction
modulo `2 ^ 64` where the original can wrap, Go slices become `List`s,
Go maps become association lists, and every fallible Go function returns
an explicit result value.  A dedicated result constructor `panic` records
the Go run-time panics (slice index out of range) that are reachable in
the embedded code paths.
-/

namespace Phonid

/-- Result of a Go call `(T, error)`: a value, an error value, or a
run-time panic. -/
inductive GoResult (ε α : Type) where
  | ok (val : α)
  | error (err : ε)
  | panic
deriving DecidableEq, Repr

/-- True iff the call returned a value. -/
def GoResult.isOk {ε α : Type} : GoResult ε α → Bool
  | .ok _ => true
  | _ => false

/-! ## Feistel shuffler

Embedding of the redesigned shuffler (`ShuffleConfig`, `NewFeistelShuffler`,
`Encode`, `Decode`, `roundFunction`); the claims cite this version, the one
whose constructor returns `(*FeistelShuffler, error)`. -/

/-- Modulus of Go `uint64` arithmetic. -/
def U64 : Nat := 2 ^ 64

/-- FNV-1a 64-bit offset basis (Go `hash/fnv`). -/
def fnvOffset : Nat := 14695981039346656037

/-- FNV-1a 64-bit prime (Go `hash/fnv`). -/
def fnvPrime : Nat := 1099511628211

/-- One FNV-1a step: xor in the byte, then multiply by the prime with
64-bit wraparound. -/
def fnvStep (h b : Nat) : Nat := ((h ^^^ b) * fnvPrime) % U64

/-- FNV-1a 64-bit hash of a byte stream. -/
def fnv64 (bytes : List Nat) : Nat := bytes.foldl fnvStep fnvOffset

/-- The 8 little-endian bytes of a 64-bit value, as written by
`binary.Write(h, binary.LittleEndian, x)` for a `uint64`. -/
def leBytes8 (x : Nat) : List Nat :=
  [x % 256, x / 256 % 256, x / 256 ^ 2 % 256, x / 256 ^ 3 % 256,
   x / 256 ^ 4 % 256, x / 256 ^ 5 % 256, x / 256 ^ 6 % 256, x / 256 ^ 7 % 256]

/-- Errors raised by the shuffler constructor, validator, and codecs.
Each constructor records the numeric values cited by the corresponding
`fmt.Errorf` message. -/
inductive ShuffleErr where
  | bitWidthOutOfRange (b : Int)
  | roundsOutOfRange (r : Int)
  | inputOutOfRange (x maxCited : Nat)
deriving DecidableEq, Repr

/-- Go struct `FeistelShuffler`. -/
structure FeistelShuffler where
  rounds : Nat
  bitWidth : Nat
  halfBits : Nat
  mask : Nat
  roundKeys : List Nat
deriving DecidableEq, Repr

/-- Round key `i`: FNV-1a hash of the little-endian seed followed by the
little-endian round index (the body of the key loop in
`NewFeistelShuffler`). -/
def roundKey (seed i : Nat) : Nat := fnv64 (leBytes8 seed ++ leBytes8 i)

/-- Go `NewFeistelShuffler(bitWidth, rounds int, seed uint64)`. -/
def NewFeistelShuffler (bitWidth rounds : Int) (seed : Nat) :
    GoResult ShuffleErr FeistelShuffler :=
  if bitWidth < 4 ∨ 64 < bitWidth then .error (.bitWidthOutOfRange bitWidth)
  else if rounds < 0 ∨ 10 < rounds then .error (.roundsOutOfRange rounds)
  else
    let b := bitWidth.toNat
    let r := rounds.toNat
    .ok { rounds := r
          bitWidth := b
          halfBits := b / 2
          mask := 2 ^ (b / 2) - 1
          roundKeys := (List.range r).map (roundKey seed) }

/-- Go method `roundFunction`: FNV-1a over the 16 little-endian bytes of
`input` and `key`, truncated to the half-width mask. -/
def FeistelShuffler.roundFunction (fs : FeistelShuffler) (input key : Nat) : Nat :=
  fnv64 (leBytes8 input ++ leBytes8 key) &&& fs.mask

/-- One encoding round of the Feistel loop: xor the round output into the
left half, swap. -/
def feistelStep (fs : FeistelShuffler) (LR : Nat × Nat) (k : Nat) : Nat × Nat :=
  (LR.2, (LR.1 ^^^ fs.roundFunction LR.2 k) &&& fs.mask)

/-- One decoding round (the loop body of `Decode`, which walks the round
keys backwards). -/
def feistelStepInv (fs : FeistelShuffler) (LR : Nat × Nat) (k : Nat) : Nat × Nat :=
  ((LR.2 ^^^ fs.roundFunction LR.1 k) &&& fs.mask, LR.1)

/-- Recombination `(left << halfBits) | right` of the two halves. -/
def combineHalves (fs : FeistelShuffler) (LR : Nat × Nat) : Nat :=
  (LR.1 <<< fs.halfBits) ||| LR.2

/-- Go method `FeistelShuffler.Encode`: range check, split into halves,
round loop, recombination. -/
def FeistelShuffler.Encode (fs : FeistelShuffler) (input : Nat) :
    GoResult ShuffleErr Nat :=
  if fs.bitWidth ≠ 64 ∧ 2 ^ fs.bitWidth ≤ input then
    .error (.inputOutOfRange input (2 ^ fs.bitWidth - 1))
  else
    .ok (combineHalves fs (fs.roundKeys.foldl (feistelStep fs)
      (input >>> fs.halfBits, input &&& fs.mask)))

/-- Go method `FeistelShuffler.Decode`: same split, rounds applied in
reverse order. -/
def FeistelShuffler.Decode (fs : FeistelShuffler) (encoded : Nat) :
    GoResult ShuffleErr Nat :=
  if fs.bitWidth ≠ 64 ∧ 2 ^ fs.bitWidth ≤ encoded then
    .error (.inputOutOfRange encoded (2 ^ fs.bitWidth - 1))
  else
    .ok (combineHalves fs (fs.roundKeys.reverse.foldl (feistelStepInv fs)
      (encoded >>> fs.halfBits, encoded &&& fs.mask)))

/-- Go struct `ShuffleConfig` (`BitWidth`, `Rounds` are Go `int`;
`Seed` is `uint64`). -/
structure ShuffleConfig where
  BitWidth : Int
  Rounds : Int
  Seed : Nat
deriving DecidableEq, Repr

/-- Go method `ShuffleConfig.Validate`: bit width must lie in `[4,64]`
and rounds in `[3,10]`. -/
def ShuffleConfig.Validate (sc : ShuffleConfig) : GoResult ShuffleErr Unit :=
  if sc.BitWidth < 4 ∨ 64 < sc.BitWidth then
    .error (.bitWidthOutOfRange sc.BitWidth)
  else if sc.Rounds < 3 ∨ 10 < sc.Rounds then
    .error (.roundsOutOfRange sc.Rounds)
  else .ok ()

/-! ## Phonetic configuration and validation (pkg/phonid.go)

Go runes are Unicode scalar values and are modelled as `Char`; a Go
`string` iterated with `range` yields runes, while `len(s)` counts UTF-8
bytes, so patterns are `List Char` together with an explicit byte-count
function. -/

/-- Go `RuneSet` (`[]rune`). -/
abbrev RuneSet := List Char

/-- Go `PlaceholderMap` (`map[PlaceholderType]RuneSet`), modelled as an
association list with pairwise distinct keys; `List.lookup` is map
access. -/
abbrev PlaceholderMap := List (Char × RuneSet)

/-- Go struct `PhonidConfig`. -/
structure PhonidConfig where
  Patterns : List (List Char)
  Placeholders : PlaceholderMap
deriving DecidableEq, Repr

/-- UTF-8 byte count of one rune. -/
def runeBytes (c : Char) : Nat :=
  if c.toNat < 0x80 then 1 else if c.toNat < 0x800 then 2
  else if c.toNat < 0x10000 then 3 else 4

/-- Go `len(p)` for a pattern string: total UTF-8 bytes, not runes. -/
def goLen (p : List Char) : Nat := (p.map runeBytes).sum

/-- Constant `MinCharsForVowel`. -/
def MinCharsForVowel : Nat := 2

/-- Constant `MinCharsForComplement`. -/
def MinCharsForComplement : Nat := 3

/-- Table `AllowedVowels`. -/
def AllowedVowels : List Char :=
  ['a', 'e', 'i', 'o', 'u', 'y', 'A', 'E', 'I', 'O', 'U', 'Y']

/-- Table `AllowedPatternLengths`. -/
def AllowedPatternLengths : List Nat := [3, 5, 7, 11, 23]

/-- Table `ComplementPlaceholders`: the non-vowel phonetic categories. -/
def ComplementPlaceholders : List Char := ['C', 'L', 'N', 'S', 'F']

/-- Table `DefaultPlaceholders`. -/
def DefaultPlaceholders : PlaceholderMap :=
  [('C', "bcdfghjkpqstvwxz".toList), ('L', "lmnr".toList), ('V', "aeiou".toList)]

/-- Table `DefaultPatterns`. -/
def DefaultPatterns : List (List Char) :=
  ["CVC".toList, "VCCVC".toList, "CVCVCVC".toList, "CVCVCVCVCVC".toList]

/-- Validation and construction errors of the phonetic side, one
constructor per distinct `fmt.Errorf` site (plus the spec-modelled
duplicate-capacity rejection). -/
inductive ValErr where
  | duplicatePatternLength (n : Nat)
  | patternLengthDisallowed (n : Nat)
  | undefinedPlaceholder (r : Char)
  | duplicateInClass (tag : Char)
  | emptyVowelClass (tag : Char)
  | vowelNotBaseVowel (tag c : Char)
  | vowelTooSmall (got : Nat)
  | missingVowel
  | missingComplement
  | classOverlap (t1 t2 : Char)
  | emptyPattern
  | emptyCharset (r : Char)
  | duplicateCapacity
deriving DecidableEq, Repr

/-- Go `hasDuplicates`: some rune occurs twice. -/
def hasDuplicates : List Char → Bool
  | [] => false
  | r :: rest => rest.contains r || hasDuplicates rest

/-- Go `hasOverlap`: the two rune slices share an element. -/
def hasOverlap (a b : List Char) : Bool := b.any (fun r => a.contains r)

/-- Go `isAllowedLength`. -/
def isAllowedLength (n : Nat) : Bool := AllowedPatternLengths.contains n

/-- Go `isVowelBase`, restricted to the direct `AllowedVowels` membership
test.  The NFD fallback that additionally admits precomposed diacritical
vowels needs the Unicode decomposition tables and is outside this model;
every configuration appearing in this development uses plain base vowels,
on which the two functions agree. -/
def isVowelBase (r : Char) : Bool := AllowedVowels.contains r

/-- Go `countPlaceholders` fails exactly when some pattern rune has no
character set in the map; the counts map it otherwise returns is
recovered as `p.count tag` and its key set as `usedTags p`. -/
def countPlaceholdersOk : List Char → PlaceholderMap → GoResult ValErr Unit
  | [], _ => .ok ()
  | r :: rs, m =>
    match m.lookup r with
    | none => .error (.undefinedPlaceholder r)
    | some _ => countPlaceholdersOk rs m

/-- The distinct placeholder tags used by a pattern (key set of the Go
`counts` map). -/
def usedTags (p : List Char) : List Char :=
  p.foldl (fun acc r => if acc.contains r then acc else acc ++ [r]) []

/-- Go `validateVowelSet`. -/
def validateVowelSet (tag : Char) (chars : RuneSet) : GoResult ValErr Unit :=
  if tag ≠ 'V' then .ok ()
  else if chars.isEmpty then .error (.emptyVowelClass tag)
  else
    match chars.find? (fun c => ! isVowelBase c) with
    | some c => .error (.vowelNotBaseVowel tag c)
    | none => .ok ()

/-- Go `validateMinimumSize`: only the vowel class carries a minimum
size. -/
def validateMinimumSize (tag : Char) (chars : RuneSet) : GoResult ValErr Unit :=
  if tag = 'V' ∧ chars.length < MinCharsForVowel then
    .error (.vowelTooSmall chars.length)
  else .ok ()

/-- Go `validatePlaceholderSets`: walk the placeholder map entries,
skipping classes the pattern does not use. -/
def validatePlaceholderSets (p : List Char) : PlaceholderMap → GoResult ValErr Unit
  | [] => .ok ()
  | (tag, chars) :: rest =>
    if p.count tag = 0 then validatePlaceholderSets p rest
    else if hasDuplicates chars then .error (.duplicateInClass tag)
    else
      match validateVowelSet tag chars with
      | .ok _ =>
        match validateMinimumSize tag chars with
        | .ok _ => validatePlaceholderSets p rest
        | e => e
      | e => e

/-- Go `requireVowel`. -/
def requireVowel (p : List Char) : GoResult ValErr Unit :=
  if 0 < p.count 'V' then .ok () else .error .missingVowel

/-- Go `isComplementPlaceholder`. -/
def isComplementPlaceholder (t : Char) : Bool := ComplementPlaceholders.contains t

/-- Go `requireMinimalComplement`: some complement class used by the
pattern has at least `MinCharsForComplement` members. -/
def requireMinimalComplement (p : List Char) (m : PlaceholderMap) :
    GoResult ValErr Unit :=
  if (usedTags p).any (fun t =>
      isComplementPlaceholder t &&
        decide (MinCharsForComplement ≤ ((m.lookup t).getD []).length)) then
    .ok ()
  else .error .missingComplement

/-- The pair scan of `validateNoOverlaps`. -/
def overlapScan (m : PlaceholderMap) : List Char → GoResult ValErr Unit
  | [] => .ok ()
  | t :: ts =>
    match ts.find? (fun u =>
        hasOverlap ((m.lookup t).getD []) ((m.lookup u).getD [])) with
    | some u => .error (.classOverlap t u)
    | none => overlapScan m ts

/-- Go `validateNoOverlaps`: every pair of classes used by the pattern is
disjoint. -/
def validateNoOverlaps (p : List Char) (m : PlaceholderMap) : GoResult ValErr Unit :=
  overlapScan m (usedTags p)

/-- Go `validatePattern`. -/
def validatePattern (p : List Char) (m : PlaceholderMap) : GoResult ValErr Unit :=
  match countPlaceholdersOk p m with
  | .ok _ =>
    match validatePlaceholderSets p m with
    | .ok _ =>
      match requireVowel p with
      | .ok _ =>
        match requireMinimalComplement p m with
        | .ok _ => validateNoOverlaps p m
        | e => e
      | e => e
    | e => e
  | e => e

/-- The pattern loop of `PhonidConfig.Validate`, carrying the set of byte
lengths already seen (`patternLengths`). -/
def validatePatternsLoop (m : PlaceholderMap) :
    List (List Char) → List Nat → GoResult ValErr Unit
  | [], _ => .ok ()
  | p :: rest, seen =>
    if seen.contains (goLen p) then .error (.duplicatePatternLength (goLen p))
    else if ! isAllowedLength (goLen p) then .error (.patternLengthDisallowed (goLen p))
    else
      match validatePattern p m with
      | .ok _ => validatePatternsLoop m rest (goLen p :: seen)
      | e => e

/-- The first default-substitution step of `PhonidConfig.Validate`. -/
def withDefaultPatterns (pc : PhonidConfig) : PhonidConfig :=
  if pc.Patterns.isEmpty then { pc with Patterns := DefaultPatterns } else pc

/-- The second default-substitution step of `PhonidConfig.Validate`. -/
def withDefaultPlaceholders (pc : PhonidConfig) : PhonidConfig :=
  if pc.Placeholders.isEmpty then { pc with Placeholders := DefaultPlaceholders }
  else pc

/-- Go `PhonidConfig.Validate`.  The receiver is a pointer: the method
first substitutes the documented defaults in place when the pattern list
or the placeholder map is empty.  The embedding returns the (possibly
updated) config value together with the result. -/
def PhonidConfig.Validate (pc : PhonidConfig) : PhonidConfig × GoResult ValErr Unit :=
  (withDefaultPlaceholders (withDefaultPatterns pc),
    validatePatternsLoop (withDefaultPlaceholders (withDefaultPatterns pc)).Placeholders
      (withDefaultPlaceholders (withDefaultPatterns pc)).Patterns [])

/-! ## Pattern codecs and the phonetic encoder (multi-pattern generation)

The codec capacity (`totalCombinations`, Go type `PositiveInt = int`) and
the decode accumulator run on 64-bit signed Go `int` arithmetic and wrap
on overflow; overflow is reachable, since an allowed 23-rune pattern over
the default-sized classes already exceeds `2 ^ 63`.  The embedding
therefore carries these quantities as `Int` normalized with `wrap64`
after every operation that can overflow. -/

/-- Two's-complement normalization of 64-bit signed `int` arithmetic:
`wrap64 x` is the unique value in `[-2^63, 2^63)` congruent to `x`
modulo `2 ^ 64`. -/
def wrap64 (x : Int) : Int := (x + 2 ^ 63) % 2 ^ 64 - 2 ^ 63

/-- Go struct `Position`. -/
structure Position where
  placeholder : Char
  chars : List Char
  base : Nat
deriving DecidableEq, Repr

/-- Go struct `PatternEncoder`; `totalCombinations` is the wrapping
`PositiveInt` field. -/
structure PatternEncoder where
  pattern : List Char
  positions : List Position
  totalCombinations : Int
  length : Nat
deriving DecidableEq, Repr

/-- Errors of the codecs, one constructor per `fmt.Errorf` site, carrying
the numbers the message cites (the cited maxima are wrapping `int`
values). -/
inductive CodecErr where
  | outOfRange (n : Nat) (maxCited : Int)
  | patternOutOfRange (n : Nat) (maxCited : Int)
  | lengthMismatch (wordLen patternLen : Nat)
  | invalidRune (c : Char)
  | lengthUnknown (wordLen : Nat)
deriving DecidableEq, Repr

/-- The position-building loop of `buildPatternEncoder`. -/
def buildPositions : List Char → PlaceholderMap → GoResult ValErr (List Position)
  | [], _ => .ok []
  | r :: rs, m =>
    match m.lookup r with
    | none => .error (.undefinedPlaceholder r)
    | some chars =>
      if chars.isEmpty then .error (.emptyCharset r)
      else
        match buildPositions rs m with
        | .ok ps => .ok ({ placeholder := r, chars := chars, base := chars.length } :: ps)
        | e => e

/-- The running product `totalCombinations *= position.base` of
`buildPatternEncoder` (also the `multiplier` loop of
`PatternEncoder.Decode`), each multiplication carried out in wrapping
`int` arithmetic. -/
def combinedBase (ps : List Position) : Int :=
  ps.foldl (fun acc pos => wrap64 (acc * pos.base)) 1

/-- The mathematical product of the position bases — the spec's
`capacity`.  `combinedBase` is its image under `wrap64`
(`combinedBase_eq_wrap`); the two agree exactly when this product stays
below `2 ^ 63`. -/
def trueCapacity (ps : List Position) : Nat := (ps.map Position.base).prod

/-- Go `buildPatternEncoder`. -/
def buildPatternEncoder (pattern : List Char) (m : PlaceholderMap) :
    GoResult ValErr PatternEncoder :=
  if pattern.isEmpty then .error .emptyPattern
  else
    match buildPositions pattern m with
    | .ok ps =>
      .ok { pattern := pattern, positions := ps,
            totalCombinations := combinedBase ps, length := ps.length }
    | .error e => .error e
    | .panic => .panic

/-- The inner loop of the capacity sort in `newPhoneticEncoder`: walking
`j` over the tail and swapping whenever `a[i].totalCombinations >
a[j].totalCombinations` leaves the minimum at slot `i` and carries the
displaced larger element rightwards to be compared next; `selectMin` is
that computation on the element at `i` and the tail. -/
def selectMin (cur : PatternEncoder) :
    List PatternEncoder → PatternEncoder × List PatternEncoder
  | [] => (cur, [])
  | y :: ys =>
    if y.totalCombinations < cur.totalCombinations then
      let r := selectMin y ys
      (r.1, cur :: r.2)
    else
      let r := selectMin cur ys
      (r.1, y :: r.2)

theorem selectMin_snd_length (cur : PatternEncoder) (l : List PatternEncoder) :
    (selectMin cur l).2.length = l.length := by
  induction l generalizing cur with
  | nil => rfl
  | cons y ys ih =>
    by_cases h : y.totalCombinations < cur.totalCombinations <;>
      simp [selectMin, h, ih]

/-- The outer loop of the capacity sort, with the list length as
structural fuel: each pass places the minimum in front and recurses on
the reshuffled tail, whose length shrinks by one. -/
def sortPEAux : Nat → List PatternEncoder → List PatternEncoder
  | _, [] => []
  | 0, l => l
  | fuel + 1, x :: xs => (selectMin x xs).1 :: sortPEAux fuel (selectMin x xs).2

/-- The capacity sort of `newPhoneticEncoder`. -/
def sortPatternEncoders (l : List PatternEncoder) : List PatternEncoder :=
  sortPEAux l.length l

/-- Go struct `PhoneticEncoder`. -/
structure PhoneticEncoder where
  config : PhonidConfig
  patterns : List PatternEncoder
deriving DecidableEq, Repr

/-- The build loop of `newPhoneticEncoder`. -/
def buildAllPatterns (m : PlaceholderMap) :
    List (List Char) → GoResult ValErr (List PatternEncoder)
  | [] => .ok []
  | p :: rest =>
    match buildPatternEncoder p m with
    | .ok pe =>
      match buildAllPatterns m rest with
      | .ok pes => .ok (pe :: pes)
      | e => e
    | .error e => .error e
    | .panic => .panic

/-- Go `newPhoneticEncoder`: the internal constructor, which assumes a
valid config, builds one codec per pattern and sorts them by capacity. -/
def newPhoneticEncoder (pc : PhonidConfig) : GoResult ValErr PhoneticEncoder :=
  match buildAllPatterns pc.Placeholders pc.Patterns with
  | .ok pes => .ok { config := pc, patterns := sortPatternEncoders pes }
  | .error e => .error e
  | .panic => .panic

/-- Go `NewPhoneticEncoder`: validate first (mutating the config), then
build. -/
def NewPhoneticEncoder (pc : PhonidConfig) : GoResult ValErr PhoneticEncoder :=
  match pc.Validate with
  | (pc2, .ok _) => newPhoneticEncoder pc2
  | (_, .error e) => .error e
  | (_, .panic) => .panic

/-- The digit loop of `PatternEncoder.Encode`: positions are walked right
to left, emitting `chars[remaining % base]` and dividing; the argument
here is the reversed position list, so that the recursion follows the Go
loop order.  The `none` result records the Go run-time panics (division
by a zero base, index out of range), which are unreachable for encoders
produced by `buildPatternEncoder`. -/
def encodeDigits : List Position → Nat → Option (List Char)
  | [], _ => some []
  | pos :: rest, n =>
    if pos.base = 0 then none
    else
      match pos.chars.get? (n % pos.base) with
      | none => none
      | some c =>
        match encodeDigits rest (n / pos.base) with
        | some cs => some (c :: cs)
        | none => none

/-- Go `PatternEncoder.Encode`: signed bounds check against the wrapping
capacity field, right-to-left digit extraction, and reversal of the
emitted runes.  `remaining := int(number)` starts at the non-negative
argument and only shrinks, so the digit loop is carried out on `Nat`;
the `- 1` of the error message is a wrapping `int` subtraction. -/
def PatternEncoder.Encode (e : PatternEncoder) (number : Nat) :
    GoResult CodecErr (List Char) :=
  if e.totalCombinations ≤ (number : Int) then
    .error (.patternOutOfRange number (wrap64 (e.totalCombinations - 1)))
  else
    match encodeDigits e.positions.reverse number with
    | some cs => .ok cs.reverse
    | none => .panic

/-- Go linear scan for the index of a rune in a position's alphabet
(`charIndex`). -/
def scanIndex (r : Char) : List Char → Option Nat
  | [] => none
  | c :: cs => if c = r then some 0 else (scanIndex r cs).map (· + 1)

/-- The accumulation loop of `PatternEncoder.Decode`: each rune is looked
up in its position's alphabet and weighted by the product of the bases of
the later positions (`multiplier`, computed by the same wrapping product
loop as `combinedBase`); the multiplication `charIndex * multiplier` and
the running `result +=` both wrap.  The Go loop accumulates the terms
left to right; since every step is normalized modulo `2 ^ 64`, the
right-to-left rendering below computes the same value.  The error
carries the offending rune; the position index and placeholder name that
the Go message also cites are omitted from the embedding. -/
def decodeRunes : List Position → List Char → GoResult CodecErr Int
  | [], [] => .ok 0
  | pos :: ps, c :: cs =>
    match scanIndex c pos.chars with
    | none => .error (.invalidRune c)
    | some idx =>
      match decodeRunes ps cs with
      | .ok rest => .ok (wrap64 (wrap64 ((idx : Int) * combinedBase ps) + rest))
      | e => e
  | _, _ => .panic

/-- Go `PatternEncoder.Decode`. -/
def PatternEncoder.Decode (e : PatternEncoder) (word : List Char) :
    GoResult CodecErr Int :=
  if word.length ≠ e.positions.length then
    .error (.lengthMismatch word.length e.positions.length)
  else decodeRunes e.positions word

/-- Go `PatternEncoder.MaxValue`. -/
def PatternEncoder.MaxValue (e : PatternEncoder) : Int :=
  wrap64 (e.totalCombinations - 1)

/-- Go `PhoneticEncoder.Encode`: the first pattern (in capacity-sorted
order) whose capacity field exceeds the number (a signed comparison)
encodes it; when none does, the error message indexes
`e.patterns[len(e.patterns)-1]`, which panics on an encoder whose
pattern list is empty.  The Go guard `number < 0` on the signed
`PositiveInt` argument is vacuous in the `Nat` embedding and is
omitted. -/
def PhoneticEncoder.Encode (e : PhoneticEncoder) (number : Nat) :
    GoResult CodecErr (List Char) :=
  match e.patterns.find? (fun p => (number : Int) < p.totalCombinations) with
  | some p => p.Encode number
  | none =>
    match e.patterns.getLast? with
    | some last => .error (.outOfRange number (wrap64 (last.totalCombinations - 1)))
    | none => .panic

/-- Go `PhoneticEncoder.Decode`: the first pattern whose length equals
the rune count of the word decodes it. -/
def PhoneticEncoder.Decode (e : PhoneticEncoder) (word : List Char) :
    GoResult CodecErr Int :=
  match e.patterns.find? (fun p => word.length == p.length) with
  | some p => p.Decode word
  | none => .error (.lengthUnknown word.length)

/-- Capacity field of the largest pattern of an encoder. -/
def largestCapacity (e : PhoneticEncoder) : Int :=
  (e.patterns.map PatternEncoder.totalCombinations).foldr max 0

/-- Duplicate test on a list of capacity fields. -/
def hasDuplicateCap : List Int → Bool
  | [] => false
  | x :: xs => xs.contains x || hasDuplicateCap xs

/-- Modelled from the spec: the duplicate-capacity rejection performed by
the current-generation `newPhoneticEncoder`, whose source file is not
among the provided sources — only its test (`Test_newPhoneticEncoder`
expects an error when two patterns produce equal capacities) and its
caller (`Config.Validate` reads the `patternEncoders` field of that
generation) are.  Per the spec, validation "must also reject" when two
different lengths "coincidentally produce the same capacity"
(`config.duplicate-capacity`).  This constructor is the cited
`newPhoneticEncoder` extended with exactly that check. -/
def newPhoneticEncoderChecked (pc : PhonidConfig) : GoResult ValErr PhoneticEncoder :=
  match buildAllPatterns pc.Placeholders pc.Patterns with
  | .ok pes =>
    if hasDuplicateCap
        ((sortPatternEncoders pes).map PatternEncoder.totalCombinations) then
      .error .duplicateCapacity
    else .ok { config := pc, patterns := sortPatternEncoders pes }
  | .error e => .error e
  | .panic => .panic

/-! ## Lemmas about the Feistel shuffler -/

theorem roundFunction_le_mask (fs : FeistelShuffler) (x k : Nat) :
    fs.roundFunction x k ≤ fs.mask :=
  Nat.and_le_right

theorem feistelStep_fst_lt (fs : FeistelShuffler) (LR : Nat × Nat) (k : Nat)
    (hR : LR.2 < 2 ^ fs.halfBits) :
    (feistelStep fs LR k).1 < 2 ^ fs.halfBits := hR

theorem feistelStep_snd_lt (fs : FeistelShuffler)
    (hm : fs.mask = 2 ^ fs.halfBits - 1) (LR : Nat × Nat) (k : Nat) :
    (feistelStep fs LR k).2 < 2 ^ fs.halfBits := by
  have h1 : (feistelStep fs LR k).2 ≤ fs.mask := Nat.and_le_right
  have h2 : fs.mask < 2 ^ fs.halfBits := by
    rw [hm]; exact Nat.sub_lt (Nat.two_pow_pos _) Nat.one_pos
  exact Nat.lt_of_le_of_lt h1 h2

theorem feistelStep_inv (fs : FeistelShuffler)
    (hm : fs.mask = 2 ^ fs.halfBits - 1) (LR : Nat × Nat) (k : Nat)
    (hL : LR.1 < 2 ^ fs.halfBits) (hR : LR.2 < 2 ^ fs.halfBits) :
    feistelStepInv fs (feistelStep fs LR k) k = LR := by
  obtain ⟨L, R⟩ := LR
  simp only [feistelStep, feistelStepInv]
  have hF : fs.roundFunction R k < 2 ^ fs.halfBits := by
    have := roundFunction_le_mask fs R k
    have h2 : fs.mask < 2 ^ fs.halfBits := by
      rw [hm]; exact Nat.sub_lt (Nat.two_pow_pos _) Nat.one_pos
    omega
  have hxor : L ^^^ fs.roundFunction R k < 2 ^ fs.halfBits :=
    Nat.xor_lt_two_pow hL hF
  simp only [hm, Nat.and_pow_two_sub_one_eq_mod]
  rw [Nat.mod_eq_of_lt hxor, Nat.xor_cancel_right, Nat.mod_eq_of_lt hL]

theorem feistelRounds_lt (fs : FeistelShuffler)
    (hm : fs.mask = 2 ^ fs.halfBits - 1) (keys : List Nat) (LR : Nat × Nat)
    (hL : LR.1 < 2 ^ fs.halfBits) (hR : LR.2 < 2 ^ fs.halfBits) :
    (keys.foldl (feistelStep fs) LR).1 < 2 ^ fs.halfBits ∧
      (keys.foldl (feistelStep fs) LR).2 < 2 ^ fs.halfBits := by
  induction keys generalizing LR with
  | nil => exact ⟨hL, hR⟩
  | cons k ks ih =>
    exact ih (feistelStep fs LR k) (feistelStep_fst_lt fs LR k hR)
      (feistelStep_snd_lt fs hm LR k)

theorem feistelRounds_inv (fs : FeistelShuffler)
    (hm : fs.mask = 2 ^ fs.halfBits - 1) (keys : List Nat) (LR : Nat × Nat)
    (hL : LR.1 < 2 ^ fs.halfBits) (hR : LR.2 < 2 ^ fs.halfBits) :
    keys.reverse.foldl (feistelStepInv fs) (keys.foldl (feistelStep fs) LR) = LR := by
  induction keys generalizing LR with
  | nil => rfl
  | cons k ks ih =>
    simp only [List.foldl_cons, List.reverse_cons, List.foldl_append]
    rw [ih (feistelStep fs LR k) (feistelStep_fst_lt fs LR k hR)
      (feistelStep_snd_lt fs hm LR k)]
    exact feistelStep_inv fs hm LR k hL hR

theorem combine_eq_add (L R h : Nat) (hR : R < 2 ^ h) :
    (L <<< h) ||| R = 2 ^ h * L + R := by
  rw [Nat.shiftLeft_eq, Nat.mul_comm]
  exact (Nat.mul_add_lt_is_or hR L).symm

theorem NewFeistelShuffler_fields (b r : Int) (seed : Nat) (fs : FeistelShuffler)
    (h : NewFeistelShuffler b r seed = .ok fs) :
    fs.bitWidth = b.toNat ∧ fs.halfBits = fs.bitWidth / 2 ∧
      fs.mask = 2 ^ fs.halfBits - 1 := by
  unfold NewFeistelShuffler at h
  split at h
  · exact absurd h (by simp)
  · split at h
    · exact absurd h (by simp)
    · cases h; exact ⟨rfl, rfl, rfl⟩

theorem feistel_roundtrip_aux (fs : FeistelShuffler)
    (hm : fs.mask = 2 ^ fs.halfBits - 1)
    (hb : fs.bitWidth = fs.halfBits + fs.halfBits)
    (x : Nat) (hx : x < 2 ^ fs.bitWidth) :
    ∃ y, fs.Encode x = .ok y ∧ y < 2 ^ fs.bitWidth ∧ fs.Decode y = .ok x := by
  have hpos : 0 < 2 ^ fs.halfBits := Nat.two_pow_pos _
  have hL0 : x >>> fs.halfBits < 2 ^ fs.halfBits := by
    rw [Nat.shiftRight_eq_div_pow]
    rw [hb, Nat.pow_add] at hx
    exact Nat.div_lt_of_lt_mul hx
  have hR0 : x &&& fs.mask < 2 ^ fs.halfBits := by
    rw [hm, Nat.and_pow_two_sub_one_eq_mod]
    exact Nat.mod_lt _ hpos
  rcases hfold : fs.roundKeys.foldl (feistelStep fs) (x >>> fs.halfBits, x &&& fs.mask)
    with ⟨Lf, Rf⟩
  have hl : Lf < 2 ^ fs.halfBits := by
    have h1 :=
      (feistelRounds_lt fs hm fs.roundKeys (x >>> fs.halfBits, x &&& fs.mask) hL0 hR0).1
    rw [hfold] at h1; exact h1
  have hr : Rf < 2 ^ fs.halfBits := by
    have h1 :=
      (feistelRounds_lt fs hm fs.roundKeys (x >>> fs.halfBits, x &&& fs.mask) hL0 hR0).2
    rw [hfold] at h1; exact h1
  have hy : combineHalves fs (Lf, Rf) = 2 ^ fs.halfBits * Lf + Rf :=
    combine_eq_add Lf Rf fs.halfBits hr
  have hylt : combineHalves fs (Lf, Rf) < 2 ^ fs.bitWidth := by
    rw [hb]; exact Nat.append_lt hr hl
  refine ⟨combineHalves fs (Lf, Rf), ?_, hylt, ?_⟩
  · unfold FeistelShuffler.Encode
    rw [if_neg (fun h => Nat.not_le.mpr hx h.2), hfold]
  · unfold FeistelShuffler.Decode
    rw [if_neg (fun h => Nat.not_le.mpr hylt h.2)]
    have hs1 : combineHalves fs (Lf, Rf) >>> fs.halfBits = Lf := by
      rw [hy, Nat.shiftRight_eq_div_pow, Nat.mul_add_div hpos,
        Nat.div_eq_of_lt hr, Nat.add_zero]
    have hs2 : combineHalves fs (Lf, Rf) &&& fs.mask = Rf := by
      rw [hy, hm, Nat.and_pow_two_sub_one_eq_mod, Nat.mul_add_mod,
        Nat.mod_eq_of_lt hr]
    rw [hs1, hs2, ← hfold,
      feistelRounds_inv fs hm fs.roundKeys (x >>> fs.halfBits, x &&& fs.mask) hL0 hR0]
    have hfinal : combineHalves fs (x >>> fs.halfBits, x &&& fs.mask) = x := by
      have h2 := combine_eq_add (x >>> fs.halfBits) (x &&& fs.mask) fs.halfBits hR0
      have h3 : combineHalves fs (x >>> fs.halfBits, x &&& fs.mask) =
          2 ^ fs.halfBits * (x >>> fs.halfBits) + (x &&& fs.mask) := h2
      rw [h3, Nat.shiftRight_eq_div_pow, hm, Nat.and_pow_two_sub_one_eq_mod,
        Nat.div_add_mod]
    rw [hfinal]

/-- Claim C2 (amended): for every Feistel shuffler accepted by the
constructor whose bit width is even — this covers 64 — and every
`x < 2 ^ b`, `Decode (Encode x)` returns `x`.  (The original claim over
all accepted widths fails: odd widths are accepted and break the
half-split, see `C2_counterexample`.) -/
theorem C2_feistel_roundtrip (b r : Int) (seed : Nat) (fs : FeistelShuffler)
    (hfs : NewFeistelShuffler b r seed = .ok fs)
    (heven : fs.bitWidth % 2 = 0) (x : Nat) (hx : x < 2 ^ fs.bitWidth) :
    ∃ y, fs.Encode x = .ok y ∧ fs.Decode y = .ok x := by
  obtain ⟨hbw, hhb, hm⟩ := NewFeistelShuffler_fields b r seed fs hfs
  obtain ⟨y, h1, _, h3⟩ :=
    feistel_roundtrip_aux fs hm (by omega) x hx
  exact ⟨y, h1, h3⟩

/-- The shuffler built by `NewFeistelShuffler 64 4 12345` (the instance
of the cross-platform consistency test). -/
def fs64 : FeistelShuffler :=
  { rounds := 4, bitWidth := 64, halfBits := 32, mask := 2 ^ 32 - 1,
    roundKeys := (List.range 4).map (roundKey 12345) }

/-- The embedding reproduces the cross-platform test vectors of
`TestCrossPlatformConsistency` exactly, anchoring the FNV-1a constants
and the little-endian byte order of the model to the Go
implementation. -/
theorem feistel_cross_platform_vectors :
    NewFeistelShuffler 64 4 12345 = .ok fs64 ∧
      fs64.Encode 42 = .ok 16609768389896683095 ∧
      fs64.Encode 1337 = .ok 937660670618793403 ∧
      fs64.Encode 0 = .ok 16615908886813486803 ∧
      fs64.Encode (2 ^ 64 - 1) = .ok 15298063205617206831 := by
  decide

/-- The shuffler built by `NewFeistelShuffler 4 1 0`. -/
def fs4 : FeistelShuffler :=
  { rounds := 1, bitWidth := 4, halfBits := 2, mask := 3, roundKeys := [roundKey 0 0] }

/-- The shuffler built by `NewFeistelShuffler 5 1 0` (odd width). -/
def fs5 : FeistelShuffler :=
  { rounds := 1, bitWidth := 5, halfBits := 2, mask := 3, roundKeys := [roundKey 0 0] }

/-- Witness for `C2_feistel_roundtrip` at `b = 4`, `r = 1`, `seed = 0`,
`x = 5`. -/
theorem C2_feistel_roundtrip_witness :
    ∃ y, fs4.Encode 5 = .ok y ∧ fs4.Decode y = .ok 5 :=
  C2_feistel_roundtrip 4 1 0 fs4 (by decide) (by decide) 5 (by decide)

/-- Counterexample to claim C2 as stated: the constructor accepts the odd
bit width 5, and for the instance `(b, r, seed) = (5, 1, 0)` the value
`x = 16 < 2 ^ 5` encodes to 3 but 3 decodes to 0, so
`Decode (Encode 16) ≠ 16`. -/
theorem C2_counterexample :
    NewFeistelShuffler 5 1 0 = .ok fs5 ∧ 16 < 2 ^ fs5.bitWidth ∧
      fs5.Encode 16 = .ok 3 ∧ fs5.Decode 3 = .ok 0 := by
  decide

/-- Claim C5: odd bit widths below 64 are in fact accepted, both by the
constructor and by `ShuffleConfig.Validate`, and the resulting shuffler
is not even injective (`Encode 0 = Encode 16` at width 5), contradicting
the documented bijectivity; the spec prescribes rejecting odd widths. -/
theorem C5_odd_width_accepted :
    (NewFeistelShuffler 5 1 0).isOk = true ∧
      (ShuffleConfig.Validate ⟨5, 3, 0⟩).isOk = true ∧
      fs5.Encode 0 = .ok 3 ∧ fs5.Encode 16 = .ok 3 := by
  decide

/-- Claim C6: `ShuffleConfig.Validate` rejects `rounds = 0` (it requires
`rounds ∈ [3,10]`), while the constructor `NewFeistelShuffler` accepts
`rounds ∈ [0,10]`; the claimed acceptance of every `rounds ∈ [0,10]` by
validation fails at `rounds = 0`, which the test corpus treats as
valid. -/
theorem C6_rounds_validation_mismatch :
    ShuffleConfig.Validate ⟨32, 0, 0⟩ = .error (.roundsOutOfRange 0) ∧
      (NewFeistelShuffler 32 0 0).isOk = true := by
  decide

/-! ## Generic list lemmas -/

theorem find?_split {α : Type} (p : α → Bool) (l : List α) (a : α)
    (h : l.find? p = some a) :
    ∃ l₁ l₂, l = l₁ ++ a :: l₂ ∧ ∀ x ∈ l₁, p x = false := by
  induction l with
  | nil => simp [List.find?] at h
  | cons b bs ih =>
    rw [List.find?] at h
    cases hb : p b with
    | true => rw [hb] at h; cases h; exact ⟨[], bs, rfl, by simp⟩
    | false =>
      rw [hb] at h
      obtain ⟨l₁, l₂, rfl, hl₁⟩ := ih h
      exact ⟨b :: l₁, l₂, rfl, by
        intro x hx
        rcases List.mem_cons.mp hx with rfl | hx
        · exact hb
        · exact hl₁ x hx⟩

theorem find?_first_unique {α : Type} (p : α → Bool) (l : List α) (a : α)
    (ha : a ∈ l) (hpa : p a = true) (huniq : ∀ b ∈ l, p b = true → b = a) :
    l.find? p = some a := by
  induction l with
  | nil => cases ha
  | cons b bs ih =>
    rcases List.mem_cons.mp ha with rfl | ha2
    · rw [List.find?, hpa]
    · rw [List.find?]
      cases hb : p b with
      | true =>
        have hba := huniq b (List.mem_cons_self b bs) hb
        subst hba
        rfl
      | false =>
        exact ih ha2 fun c hc hpc => huniq c (List.mem_cons_of_mem _ hc) hpc

theorem contains_iff_mem {α : Type} [BEq α] [LawfulBEq α] (l : List α) (a : α) :
    l.contains a = true ↔ a ∈ l := by
  simp [List.contains, List.elem_iff]

theorem lookup_mem {α β : Type} [BEq α] [LawfulBEq α] (l : List (α × β)) (a : α)
    (b : β) (h : l.lookup a = some b) : (a, b) ∈ l := by
  induction l with
  | nil => simp [List.lookup] at h
  | cons x xs ih =>
    rw [List.lookup] at h
    cases hab : a == x.1 with
    | true =>
      rw [hab] at h
      have hb : x.2 = b := by
        have h2 : some x.2 = some b := h
        injection h2
      have ha : a = x.1 := eq_of_beq hab
      subst ha
      rw [← hb]
      exact List.mem_cons_self _ _
    | false =>
      rw [hab] at h
      exact List.mem_cons_of_mem _ (ih h)

theorem lt_foldr_max {α : Type} (f : α → Int) (l : List α) (n : Int)
    (h0 : 0 ≤ n) (h : n < (l.map f).foldr max 0) : ∃ x ∈ l, n < f x := by
  induction l with
  | nil => simp at h; omega
  | cons a as ih =>
    simp only [List.map_cons, List.foldr_cons] at h
    rcases lt_or_ge n (f a) with h1 | h1
    · exact ⟨a, List.mem_cons_self _ _, h1⟩
    · have : n < (as.map f).foldr max 0 := by omega
      obtain ⟨x, hx, hfx⟩ := ih this
      exact ⟨x, List.mem_cons_of_mem _ hx, hfx⟩

theorem hasDuplicateCap_iff (l : List Int) : hasDuplicateCap l = true ↔ ¬ l.Nodup := by
  induction l with
  | nil => simp [hasDuplicateCap]
  | cons x xs ih =>
    simp only [hasDuplicateCap, Bool.or_eq_true, contains_iff_mem,
      List.nodup_cons, ih]
    tauto

theorem hasDuplicates_eq_false_iff (l : List Char) :
    hasDuplicates l = false ↔ l.Nodup := by
  induction l with
  | nil => simp [hasDuplicates]
  | cons x xs ih =>
    simp only [hasDuplicates, Bool.or_eq_false_iff, List.nodup_cons, ih]
    constructor
    · rintro ⟨h1, h2⟩
      refine ⟨fun hm => ?_, h2⟩
      rw [(contains_iff_mem xs x).mpr hm] at h1
      cases h1
    · rintro ⟨h1, h2⟩
      refine ⟨?_, h2⟩
      cases hc : xs.contains x with
      | true => exact absurd ((contains_iff_mem xs x).mp hc) h1
      | false => rfl

/-! ## Lemmas about the wrapping capacity arithmetic -/

theorem wrap64_eq_self (x : Int) (h1 : -(2 ^ 63) ≤ x) (h2 : x < 2 ^ 63) :
    wrap64 x = x := by
  unfold wrap64
  omega

theorem wrap64_bounds (x : Int) : -(2 ^ 63) ≤ wrap64 x ∧ wrap64 x < 2 ^ 63 := by
  unfold wrap64
  omega

theorem wrap64_natCast (m : Nat) (h : m < 2 ^ 63) : wrap64 (m : Int) = (m : Int) := by
  have h2 : (m : Int) < 2 ^ 63 := by exact_mod_cast h
  exact wrap64_eq_self _ (by omega) h2

theorem wrap64_emod (x : Int) : wrap64 x % 2 ^ 64 = x % 2 ^ 64 := by
  unfold wrap64
  omega

theorem wrap64_congr (x y : Int) (h : x % 2 ^ 64 = y % 2 ^ 64) :
    wrap64 x = wrap64 y := by
  unfold wrap64
  omega

theorem wrap64_mul_left (a b : Int) : wrap64 (wrap64 a * b) = wrap64 (a * b) := by
  apply wrap64_congr
  rw [Int.mul_emod, wrap64_emod, ← Int.mul_emod]

theorem trueCapacity_cons (p : Position) (ps : List Position) :
    trueCapacity (p :: ps) = p.base * trueCapacity ps := by
  simp [trueCapacity]

theorem trueCapacity_append (ps qs : List Position) :
    trueCapacity (ps ++ qs) = trueCapacity ps * trueCapacity qs := by
  simp [trueCapacity]

theorem trueCapacity_singleton (p : Position) : trueCapacity [p] = p.base := by
  simp [trueCapacity]

theorem trueCapacity_reverse (ps : List Position) :
    trueCapacity ps.reverse = trueCapacity ps := by
  simp [trueCapacity, List.map_reverse, List.prod_reverse]

theorem combinedBase_foldl (ps : List Position) (acc : Int)
    (h1 : -(2 ^ 63) ≤ acc) (h2 : acc < 2 ^ 63) :
    ps.foldl (fun a pos => wrap64 (a * pos.base)) acc =
      wrap64 (acc * trueCapacity ps) := by
  induction ps generalizing acc with
  | nil =>
    simp only [List.foldl_nil, trueCapacity, List.map_nil, List.prod_nil,
      Nat.cast_one, mul_one]
    exact (wrap64_eq_self acc h1 h2).symm
  | cons p ps ih =>
    simp only [List.foldl_cons]
    rw [ih (wrap64 (acc * p.base)) (wrap64_bounds _).1 (wrap64_bounds _).2,
      wrap64_mul_left, trueCapacity_cons]
    congr 1
    push_cast
    ring

/-- The stored capacity field is the two's-complement image of the true
capacity. -/
theorem combinedBase_eq_wrap (ps : List Position) :
    combinedBase ps = wrap64 (trueCapacity ps) := by
  have h := combinedBase_foldl ps 1 (by norm_num) (by norm_num)
  simpa [combinedBase, one_mul] using h

/-- When the true capacity stays below `2 ^ 63`, no multiplication of the
capacity loop wraps and the stored field equals the true capacity. -/
theorem combinedBase_eq_of_lt (ps : List Position)
    (h : trueCapacity ps < 2 ^ 63) :
    combinedBase ps = (trueCapacity ps : Int) := by
  rw [combinedBase_eq_wrap]
  exact wrap64_natCast _ h

/-! ## Lemmas about the capacity sort -/

theorem selectMin_perm (cur : PatternEncoder) (l : List PatternEncoder) :
    List.Perm ((selectMin cur l).1 :: (selectMin cur l).2) (cur :: l) := by
  induction l generalizing cur with
  | nil => rfl
  | cons y ys ih =>
    by_cases h : y.totalCombinations < cur.totalCombinations
    · simp only [selectMin, if_pos h]
      exact (List.Perm.swap cur (selectMin y ys).1 (selectMin y ys).2).trans
        ((ih y).cons cur)
    · simp only [selectMin, if_neg h]
      exact ((List.Perm.swap y (selectMin cur ys).1 (selectMin cur ys).2).trans
        ((ih cur).cons y)).trans (List.Perm.swap cur y ys)

theorem selectMin_le (cur : PatternEncoder) (l : List PatternEncoder) :
    (selectMin cur l).1.totalCombinations ≤ cur.totalCombinations ∧
      ∀ y ∈ l, (selectMin cur l).1.totalCombinations ≤ y.totalCombinations := by
  induction l generalizing cur with
  | nil => exact ⟨le_refl _, by simp⟩
  | cons y ys ih =>
    by_cases h : y.totalCombinations < cur.totalCombinations
    · simp only [selectMin, if_pos h]
      obtain ⟨h1, h2⟩ := ih y
      refine ⟨le_of_lt (lt_of_le_of_lt h1 h), ?_⟩
      intro z hz
      rcases List.mem_cons.mp hz with rfl | hz
      · exact h1
      · exact h2 z hz
    · simp only [selectMin, if_neg h]
      obtain ⟨h1, h2⟩ := ih cur
      refine ⟨h1, ?_⟩
      intro z hz
      rcases List.mem_cons.mp hz with rfl | hz
      · exact le_trans h1 (le_of_not_lt h)
      · exact h2 z hz

theorem sortPEAux_perm (fuel : Nat) :
    ∀ l : List PatternEncoder, l.length ≤ fuel →
      List.Perm (sortPEAux fuel l) l := by
  induction fuel with
  | zero =>
    intro l hl
    cases l with
    | nil => rfl
    | cons x xs => simp at hl
  | succ fuel ih =>
    intro l hl
    cases l with
    | nil => rfl
    | cons x xs =>
      rw [sortPEAux]
      have hlen : (selectMin x xs).2.length ≤ fuel := by
        rw [selectMin_snd_length]
        simpa using hl
      exact ((ih (selectMin x xs).2 hlen).cons _).trans (selectMin_perm x xs)

theorem sortPatternEncoders_perm (l : List PatternEncoder) :
    List.Perm (sortPatternEncoders l) l :=
  sortPEAux_perm l.length l (Nat.le_refl _)

theorem sortPEAux_sorted (fuel : Nat) :
    ∀ l : List PatternEncoder, l.length ≤ fuel →
      (sortPEAux fuel l).Sorted
        (fun a b => a.totalCombinations ≤ b.totalCombinations) := by
  induction fuel with
  | zero =>
    intro l hl
    cases l with
    | nil => simp [sortPEAux]
    | cons x xs => simp at hl
  | succ fuel ih =>
    intro l hl
    cases l with
    | nil => simp [sortPEAux]
    | cons x xs =>
      rw [sortPEAux, List.sorted_cons]
      have hlen : (selectMin x xs).2.length ≤ fuel := by
        rw [selectMin_snd_length]
        simpa using hl
      refine ⟨?_, ih (selectMin x xs).2 hlen⟩
      intro b hb
      have hb2 : b ∈ (selectMin x xs).2 :=
        (sortPEAux_perm fuel (selectMin x xs).2 hlen).mem_iff.mp hb
      have hb3 : b ∈ x :: xs :=
        (selectMin_perm x xs).mem_iff.mp (List.mem_cons_of_mem _ hb2)
      obtain ⟨h1, h2⟩ := selectMin_le x xs
      rcases List.mem_cons.mp hb3 with rfl | hb4
      · exact h1
      · exact h2 b hb4

theorem sortPatternEncoders_sorted (l : List PatternEncoder) :
    (sortPatternEncoders l).Sorted
      (fun a b => a.totalCombinations ≤ b.totalCombinations) :=
  sortPEAux_sorted l.length l (Nat.le_refl _)

/-! ## Lemmas about codec construction and validation -/

theorem buildPositions_spec (pat : List Char) (m : PlaceholderMap)
    (ps : List Position) (h : buildPositions pat m = .ok ps) :
    ps.map Position.placeholder = pat ∧
      ∀ pos ∈ ps, m.lookup pos.placeholder = some pos.chars ∧
        pos.base = pos.chars.length ∧ pos.chars ≠ [] := by
  induction pat generalizing ps with
  | nil =>
    rw [buildPositions] at h
    cases h
    exact ⟨rfl, by simp⟩
  | cons r rs ih =>
    rw [buildPositions] at h
    split at h
    · cases h
    · next chars hlk =>
      split at h
      · cases h
      · next hemp =>
        split at h
        · next ps' hrest =>
          cases h
          obtain ⟨ih1, ih2⟩ := ih ps' hrest
          constructor
          · simp [ih1]
          · intro pos hpos
            rcases List.mem_cons.mp hpos with rfl | hpos2
            · exact ⟨hlk, rfl, by simpa [List.isEmpty_iff] using hemp⟩
            · exact ih2 pos hpos2
        · next e hne =>
          rw [h] at hne
          exact absurd rfl (hne ps)

theorem buildPatternEncoder_spec (pat : List Char) (m : PlaceholderMap)
    (P : PatternEncoder) (h : buildPatternEncoder pat m = .ok P) :
    P.pattern = pat ∧ buildPositions pat m = .ok P.positions ∧
      P.totalCombinations = combinedBase P.positions ∧
      P.length = P.positions.length := by
  unfold buildPatternEncoder at h
  split at h
  · cases h
  · split at h
    · next ps hps => cases h; exact ⟨rfl, hps, rfl, rfl⟩
    · cases h
    · cases h

theorem buildAllPatterns_mem (m : PlaceholderMap) (pats : List (List Char))
    (pes : List PatternEncoder) (h : buildAllPatterns m pats = .ok pes) :
    ∀ pe ∈ pes, ∃ p ∈ pats, buildPatternEncoder p m = .ok pe := by
  induction pats generalizing pes with
  | nil =>
    rw [buildAllPatterns] at h
    cases h
    intro pe hpe
    cases hpe
  | cons p rest ih =>
    rw [buildAllPatterns] at h
    split at h
    · next pe0 hb =>
      split at h
      · next pes' hr =>
        cases h
        intro pe hpe
        rcases List.mem_cons.mp hpe with rfl | hpe2
        · exact ⟨p, List.mem_cons_self _ _, hb⟩
        · obtain ⟨q, hq, hbq⟩ := ih pes' hr pe hpe2
          exact ⟨q, List.mem_cons_of_mem _ hq, hbq⟩
      · next e hne =>
        rw [h] at hne
        exact absurd rfl (hne pes)
    · cases h
    · cases h

theorem validatePlaceholderSets_ok (p : List Char) (m : PlaceholderMap)
    (h : validatePlaceholderSets p m = .ok ()) :
    ∀ tag cs, (tag, cs) ∈ m → 0 < p.count tag →
      hasDuplicates cs = false ∧ validateMinimumSize tag cs = .ok () := by
  induction m with
  | nil =>
    intro tag cs hmem
    cases hmem
  | cons e rest ih =>
    obtain ⟨tg, chars⟩ := e
    rw [validatePlaceholderSets] at h
    intro tag cs hmem hcount
    split at h
    · next hc =>
      rcases List.mem_cons.mp hmem with heq | hmem2
      · injection heq with h1 h2
        subst h1; subst h2
        omega
      · exact ih h tag cs hmem2 hcount
    · split at h
      · cases h
      · next hdup =>
        split at h
        · next v hv =>
          split at h
          · next w hms =>
            rcases List.mem_cons.mp hmem with heq | hmem2
            · injection heq with h1 h2
              subst h1; subst h2
              exact ⟨Bool.eq_false_iff.mpr hdup, hms⟩
            · exact ih h tag cs hmem2 hcount
          · next e2 hne =>
            rw [h] at hne
            exact absurd rfl (hne ())
        · next e2 hne =>
          rw [h] at hne
          exact absurd rfl (hne ())

theorem validatePattern_ok (p : List Char) (m : PlaceholderMap)
    (h : validatePattern p m = .ok ()) :
    validatePlaceholderSets p m = .ok () := by
  unfold validatePattern at h
  split at h
  · next v hc =>
    split at h
    · next w hs => cases w; exact hs
    · next e hne => exact h
  · next e hne => exact (hne () h).elim

theorem validatePatternsLoop_ok (m : PlaceholderMap) (pats : List (List Char)) :
    ∀ seen : List Nat, validatePatternsLoop m pats seen = .ok () →
      ∀ p ∈ pats, validatePattern p m = .ok () := by
  induction pats with
  | nil =>
    intro seen h p hp
    cases hp
  | cons q rest ih =>
    intro seen h p hp
    rw [validatePatternsLoop] at h
    split at h
    · cases h
    · split at h
      · cases h
      · split at h
        · next v hv =>
          rcases List.mem_cons.mp hp with rfl | hp2
          · cases v; exact hv
          · exact ih _ h p hp2
        · next e hne => exact ((hne () h).elim : _)

/-! ## Mixed-radix roundtrip lemmas -/

theorem scanIndex_get (cs : List Char) (hnd : cs.Nodup) (d : Nat)
    (hd : d < cs.length) :
    scanIndex (cs.get ⟨d, hd⟩) cs = some d := by
  induction cs generalizing d with
  | nil => simp at hd
  | cons c cs ih =>
    cases d with
    | zero => simp [scanIndex]
    | succ d' =>
      have hd' : d' < cs.length := by simpa using hd
      have hmem : cs.get ⟨d', hd'⟩ ∈ cs := cs.get_mem d' hd'
      have hne : c ≠ cs.get ⟨d', hd'⟩ := by
        intro heq
        exact (List.nodup_cons.mp hnd).1 (heq ▸ hmem)
      have hget : (c :: cs).get ⟨d' + 1, hd⟩ = cs.get ⟨d', hd'⟩ := rfl
      rw [hget, scanIndex, if_neg hne, ih (List.nodup_cons.mp hnd).2 d' hd']
      rfl

theorem scanIndex_lt (r : Char) (cs : List Char) (d : Nat)
    (h : scanIndex r cs = some d) : d < cs.length := by
  induction cs generalizing d with
  | nil => cases h
  | cons c cs ih =>
    rw [scanIndex] at h
    split at h
    · injection h with h1
      simp [← h1]
    · rcases Option.map_eq_some'.mp h with ⟨d', hd', hdd⟩
      have hlt := ih d' hd'
      simp only [List.length_cons]
      omega

/-- A successful decode over positions whose true capacity does not
overflow produces the unwrapped mixed-radix value, a natural number
below the true capacity. -/
theorem decodeRunes_bounds (ps : List Position) (cs : List Char)
    (hgood : ∀ q ∈ ps, q.base = q.chars.length)
    (hcap : trueCapacity ps < 2 ^ 63) (v : Int)
    (h : decodeRunes ps cs = .ok v) :
    ∃ vN : Nat, v = (vN : Int) ∧ vN < trueCapacity ps := by
  induction ps generalizing cs v with
  | nil =>
    cases cs with
    | cons c cs' => cases h
    | nil =>
      rw [decodeRunes] at h
      injection h with hv
      exact ⟨0, hv.symm, by simp [trueCapacity]⟩
  | cons p ps' ih =>
    cases cs with
    | nil => cases h
    | cons c0 cs' =>
      rw [decodeRunes] at h
      split at h
      · cases h
      · next idx hscan0 =>
        split at h
        · next rest hrest =>
          injection h with hv
          have hbp : p.base = p.chars.length := hgood p (List.mem_cons_self _ _)
          have hidx : idx < p.base := by
            rw [hbp]; exact scanIndex_lt c0 p.chars idx hscan0
          have hb0 : 0 < p.base := by omega
          have htc : trueCapacity (p :: ps') = p.base * trueCapacity ps' :=
            trueCapacity_cons p ps'
          have hcap' : trueCapacity ps' < 2 ^ 63 := by
            have h1 : trueCapacity ps' ≤ p.base * trueCapacity ps' :=
              Nat.le_mul_of_pos_left _ hb0
            omega
          obtain ⟨restN, hrestCast, hrestLt⟩ :=
            ih cs' (fun q hq => hgood q (List.mem_cons_of_mem _ hq)) hcap' rest hrest
          have hcb : combinedBase ps' = (trueCapacity ps' : Int) :=
            combinedBase_eq_of_lt ps' hcap'
          have hvN : idx * trueCapacity ps' + restN < trueCapacity (p :: ps') := by
            have h1 : (idx + 1) * trueCapacity ps' =
                idx * trueCapacity ps' + trueCapacity ps' := by ring
            have h2 : (idx + 1) * trueCapacity ps' ≤ p.base * trueCapacity ps' :=
              Nat.mul_le_mul_right _ hidx
            omega
          have hvN63 : idx * trueCapacity ps' + restN < 2 ^ 63 := by omega
          refine ⟨idx * trueCapacity ps' + restN, ?_, hvN⟩
          rw [← hv, hrestCast, hcb]
          have e1 : (idx : Int) * (trueCapacity ps' : Int) =
              ((idx * trueCapacity ps' : Nat) : Int) := by push_cast; ring
          rw [e1, wrap64_natCast _ (by omega), ← Nat.cast_add,
            wrap64_natCast _ hvN63]
        · next e hne => exact ((hne _ h).elim : _)

theorem decodeRunes_append (ps : List Position) (cs : List Char)
    (pos : Position) (c : Char) (d mN : Nat)
    (hgood : ∀ q ∈ ps, q.base = q.chars.length)
    (hposb : pos.base = pos.chars.length)
    (hcap : trueCapacity (ps ++ [pos]) < 2 ^ 63)
    (hlen : cs.length = ps.length)
    (hscan : scanIndex c pos.chars = some d)
    (h : decodeRunes ps cs = .ok (mN : Int))
    (hmlt : mN < trueCapacity ps) :
    decodeRunes (ps ++ [pos]) (cs ++ [c]) = .ok ((mN * pos.base + d : Nat) : Int) := by
  have hd : d < pos.base := by
    rw [hposb]; exact scanIndex_lt c pos.chars d hscan
  induction ps generalizing cs mN with
  | nil =>
    cases cs with
    | cons c0 cs0 => simp at hlen
    | nil =>
      rw [decodeRunes] at h
      injection h with hm
      have hm0 : mN = 0 := by exact_mod_cast hm.symm
      subst hm0
      have hb63 : pos.base < 2 ^ 63 := by
        have h1 : trueCapacity (([] : List Position) ++ [pos]) = pos.base := by
          simp [trueCapacity]
        omega
      simp only [List.nil_append, decodeRunes, hscan, combinedBase, List.foldl_nil,
        mul_one, add_zero]
      rw [wrap64_natCast d (by omega), wrap64_natCast d (by omega)]
      norm_num
  | cons p ps' ih =>
    cases cs with
    | nil => simp at hlen
    | cons c0 cs0 =>
      rw [decodeRunes] at h
      split at h
      · cases h
      · next idx hscan0 =>
        split at h
        · next rest hrest =>
          injection h with hv
          have hbp : p.base = p.chars.length := hgood p (List.mem_cons_self _ _)
          have hidx : idx < p.base := by
            rw [hbp]; exact scanIndex_lt c0 p.chars idx hscan0
          have hb0 : 0 < p.base := by omega
          have hpos0 : 0 < pos.base := by omega
          have htcCons : trueCapacity ((p :: ps') ++ [pos]) =
              p.base * trueCapacity (ps' ++ [pos]) := by
            rw [List.cons_append, trueCapacity_cons]
          have hcapTail : trueCapacity (ps' ++ [pos]) < 2 ^ 63 := by
            have h1 : trueCapacity (ps' ++ [pos]) ≤
                p.base * trueCapacity (ps' ++ [pos]) :=
              Nat.le_mul_of_pos_left _ hb0
            omega
          have htcTail : trueCapacity (ps' ++ [pos]) =
              trueCapacity ps' * pos.base := by
            rw [trueCapacity_append, trueCapacity_singleton]
          have hcapPs' : trueCapacity ps' < 2 ^ 63 := by
            have h1 : trueCapacity ps' ≤ trueCapacity ps' * pos.base :=
              Nat.le_mul_of_pos_right _ hpos0
            omega
          obtain ⟨restN, hrestCast, hrestLt⟩ :=
            decodeRunes_bounds ps' cs0
              (fun q hq => hgood q (List.mem_cons_of_mem _ hq)) hcapPs' rest hrest
          have hcb : combinedBase ps' = (trueCapacity ps' : Int) :=
            combinedBase_eq_of_lt ps' hcapPs'
          have htcP : trueCapacity (p :: ps') = p.base * trueCapacity ps' :=
            trueCapacity_cons p ps'
          have hmlt' : mN < trueCapacity (p :: ps') := hmlt
          have hA63 : idx * trueCapacity ps' + restN < 2 ^ 63 := by
            have h1 : (idx + 1) * trueCapacity ps' =
                idx * trueCapacity ps' + trueCapacity ps' := by ring
            have h2 : (idx + 1) * trueCapacity ps' ≤ p.base * trueCapacity ps' :=
              Nat.mul_le_mul_right _ hidx
            have h3 : trueCapacity (p :: ps') ≤ trueCapacity ((p :: ps') ++ [pos]) := by
              have h4 : trueCapacity ((p :: ps') ++ [pos]) =
                  trueCapacity (p :: ps') * pos.base := by
                rw [trueCapacity_append, trueCapacity_singleton]
              have h5 : trueCapacity (p :: ps') ≤
                  trueCapacity (p :: ps') * pos.base :=
                Nat.le_mul_of_pos_right _ hpos0
              omega
            omega
          have hmNeq : mN = idx * trueCapacity ps' + restN := by
            have e1 : (idx : Int) * (trueCapacity ps' : Int) =
                ((idx * trueCapacity ps' : Nat) : Int) := by push_cast; ring
            have e2 : wrap64 (wrap64 ((idx : Int) * combinedBase ps') + rest) =
                ((idx * trueCapacity ps' + restN : Nat) : Int) := by
              rw [hrestCast, hcb, e1, wrap64_natCast _ (by omega), ← Nat.cast_add,
                wrap64_natCast _ hA63]
            rw [e2] at hv
            exact_mod_cast hv.symm
          have hrest' : decodeRunes ps' cs0 = .ok ((restN : Nat) : Int) := by
            rw [hrestCast] at hrest
            exact hrest
          have hstep := ih cs0 restN
            (fun q hq => hgood q (List.mem_cons_of_mem _ hq)) hcapTail
            (by simpa using hlen) hrest' hrestLt
          simp only [List.cons_append, decodeRunes, hscan0, List.append_eq, hstep]
          have hcbT : combinedBase (ps' ++ [pos]) =
              ((trueCapacity ps' * pos.base : Nat) : Int) := by
            rw [combinedBase_eq_of_lt _ hcapTail, htcTail]
          have hAll63 : idx * (trueCapacity ps' * pos.base) +
              (restN * pos.base + d) < 2 ^ 63 := by
            have h1 : (restN + 1) * pos.base = restN * pos.base + pos.base := by ring
            have h2 : (restN + 1) * pos.base ≤ trueCapacity ps' * pos.base :=
              Nat.mul_le_mul_right _ hrestLt
            have h3 : (idx + 1) * (trueCapacity ps' * pos.base) =
                idx * (trueCapacity ps' * pos.base) +
                  trueCapacity ps' * pos.base := by ring
            have h4 : (idx + 1) * (trueCapacity ps' * pos.base) ≤
                p.base * (trueCapacity ps' * pos.base) :=
              Nat.mul_le_mul_right _ hidx
            have h5 : trueCapacity ((p :: ps') ++ [pos]) =
                p.base * (trueCapacity ps' * pos.base) := by
              rw [htcCons, htcTail]
            omega
          have e1 : (idx : Int) * ((trueCapacity ps' * pos.base : Nat) : Int) =
              ((idx * (trueCapacity ps' * pos.base) : Nat) : Int) := by
            push_cast; ring
          rw [hcbT, e1, wrap64_natCast _ (by omega), ← Nat.cast_add,
            wrap64_natCast _ hAll63, hmNeq]
          have e2 : idx * (trueCapacity ps' * pos.base) + (restN * pos.base + d) =
              (idx * trueCapacity ps' + restN) * pos.base + d := by ring
          rw [e2]
        · next e hne => exact ((hne _ h).elim : _)

theorem encode_decode_core (rps : List Position)
    (hps : ∀ pos ∈ rps, pos.base = pos.chars.length ∧ pos.chars ≠ [] ∧ pos.chars.Nodup)
    (hcap : trueCapacity rps < 2 ^ 63)
    (n : Nat) (hn : n < trueCapacity rps) :
    ∃ cs, encodeDigits rps n = some cs ∧ cs.length = rps.length ∧
      decodeRunes rps.reverse cs.reverse = .ok (n : Int) := by
  induction rps generalizing n with
  | nil =>
    refine ⟨[], rfl, rfl, ?_⟩
    simp only [trueCapacity, List.map_nil, List.prod_nil] at hn
    have hn0 : n = 0 := by omega
    subst hn0
    rfl
  | cons pos rest ih =>
    obtain ⟨hb, hne, hnd⟩ := hps pos (List.mem_cons_self _ _)
    have hb0 : 0 < pos.base := by
      rw [hb]
      exact List.length_pos.mpr hne
    have htc : trueCapacity (pos :: rest) = pos.base * trueCapacity rest :=
      trueCapacity_cons pos rest
    have hcaprest : trueCapacity rest < 2 ^ 63 := by
      have h1 : trueCapacity rest ≤ pos.base * trueCapacity rest :=
        Nat.le_mul_of_pos_left _ hb0
      omega
    have hdlt : n % pos.base < pos.chars.length := by
      rw [← hb]
      exact Nat.mod_lt _ hb0
    have hget : pos.chars.get? (n % pos.base) =
        some (pos.chars.get ⟨n % pos.base, hdlt⟩) := List.get?_eq_get hdlt
    have hrest : n / pos.base < trueCapacity rest := by
      rw [htc] at hn
      exact Nat.div_lt_of_lt_mul hn
    obtain ⟨cs', henc', hlen', hdec'⟩ :=
      ih (fun q hq => hps q (List.mem_cons_of_mem _ hq)) hcaprest (n / pos.base) hrest
    have hscan : scanIndex (pos.chars.get ⟨n % pos.base, hdlt⟩) pos.chars =
        some (n % pos.base) := scanIndex_get pos.chars hnd _ hdlt
    refine ⟨pos.chars.get ⟨n % pos.base, hdlt⟩ :: cs', ?_, by simp [hlen'], ?_⟩
    · rw [encodeDigits, if_neg (by omega), hget, henc']
    · simp only [List.reverse_cons]
      have hgoodrev : ∀ q ∈ rest.reverse, q.base = q.chars.length := by
        intro q hq
        exact (hps q (List.mem_cons_of_mem _ (List.mem_reverse.mp hq))).1
      have hcapapp : trueCapacity (rest.reverse ++ [pos]) < 2 ^ 63 := by
        calc trueCapacity (rest.reverse ++ [pos])
            = trueCapacity rest * pos.base := by
              rw [trueCapacity_append, trueCapacity_reverse, trueCapacity_singleton]
          _ = trueCapacity (pos :: rest) := by rw [htc, Nat.mul_comm]
          _ < 2 ^ 63 := hcap
      have happ := decodeRunes_append rest.reverse cs'.reverse pos
        (pos.chars.get ⟨n % pos.base, hdlt⟩) (n % pos.base) (n / pos.base)
        hgoodrev hb hcapapp (by simp [hlen']) hscan hdec'
        (by rw [trueCapacity_reverse]; exact hrest)
      rw [happ]
      have hsum : n / pos.base * pos.base + n % pos.base = n := by
        rw [Nat.mul_comm]
        exact Nat.div_add_mod n pos.base
      rw [hsum]

theorem encodeDigits_zero (rps : List Position)
    (hps : ∀ pos ∈ rps, pos.base = pos.chars.length ∧ pos.chars ≠ []) :
    encodeDigits rps 0 = some (rps.map (fun pos => pos.chars.headI)) := by
  induction rps with
  | nil => rfl
  | cons pos rest ih =>
    obtain ⟨hb, hne⟩ := hps pos (List.mem_cons_self _ _)
    have hb0 : 0 < pos.base := by
      rw [hb]
      exact List.length_pos.mpr hne
    have hget : pos.chars.get? (0 % pos.base) = some pos.chars.headI := by
      rw [Nat.zero_mod]
      cases hc : pos.chars with
      | nil => exact absurd hc hne
      | cons c cs => rfl
    rw [encodeDigits, if_neg (by omega), hget, Nat.zero_div,
      ih (fun q hq => hps q (List.mem_cons_of_mem _ hq))]
    rfl

theorem encodeDigits_last (rps : List Position)
    (hps : ∀ pos ∈ rps, pos.base = pos.chars.length ∧ pos.chars ≠ []) :
    encodeDigits rps ((rps.map Position.base).prod - 1) =
      some (rps.map (fun pos => pos.chars.getLastD 'a')) := by
  induction rps with
  | nil => rfl
  | cons pos rest ih =>
    obtain ⟨hb, hne⟩ := hps pos (List.mem_cons_self _ _)
    have hb0 : 0 < pos.base := by
      rw [hb]
      exact List.length_pos.mpr hne
    have hpr : 0 < (rest.map Position.base).prod := by
      apply List.prod_pos
      intro b hbm
      obtain ⟨q, hq, rfl⟩ := List.mem_map.mp hbm
      obtain ⟨hq1, hq2⟩ := hps q (List.mem_cons_of_mem _ hq)
      rw [hq1]
      exact List.length_pos.mpr hq2
    have hprod : ((pos :: rest).map Position.base).prod =
        pos.base * (rest.map Position.base).prod := by simp
    obtain ⟨P', hP⟩ : ∃ P', (rest.map Position.base).prod = P' + 1 :=
      ⟨_, (Nat.succ_pred_eq_of_pos hpr).symm⟩
    have hsplit : ((pos :: rest).map Position.base).prod - 1 =
        pos.base * ((rest.map Position.base).prod - 1) + (pos.base - 1) := by
      rw [hprod, hP, Nat.add_sub_cancel, Nat.mul_add, Nat.mul_one]
      omega
    have hmod : (((pos :: rest).map Position.base).prod - 1) % pos.base =
        pos.base - 1 := by
      rw [hsplit, Nat.mul_add_mod, Nat.mod_eq_of_lt (by omega)]
    have hdiv : (((pos :: rest).map Position.base).prod - 1) / pos.base =
        (rest.map Position.base).prod - 1 := by
      rw [hsplit, Nat.mul_add_div hb0, Nat.div_eq_of_lt (by omega), Nat.add_zero]
    have hget : pos.chars.get? (pos.base - 1) = some (pos.chars.getLastD 'a') := by
      rw [hb]
      rw [← List.getLast?_eq_get?]
      rw [List.getLastD_eq_getLast?]
      cases hq : pos.chars.getLast? with
      | none => exact absurd (List.getLast?_eq_none.mp hq) hne
      | some x => rfl
    rw [encodeDigits, if_neg (by omega), hmod, hget, hdiv,
      ih (fun q hq => hps q (List.mem_cons_of_mem _ hq))]
    rfl

theorem sorted_getLast_eq_max (l : List PatternEncoder)
    (hs : l.Sorted (fun a b => a.totalCombinations ≤ b.totalCombinations))
    (h0 : ∀ p ∈ l, 0 ≤ p.totalCombinations)
    (hne : l ≠ []) :
    (l.map PatternEncoder.totalCombinations).foldr max 0 =
      (l.getLast hne).totalCombinations := by
  induction l with
  | nil => exact absurd rfl hne
  | cons a as ih =>
    cases as with
    | nil =>
      have ha := h0 a (List.mem_cons_self _ _)
      simp only [List.map_cons, List.map_nil, List.foldr_cons, List.foldr_nil]
      have hg : ([a] : List PatternEncoder).getLast hne = a := rfl
      rw [hg]
      omega
    | cons b bs =>
      have hs2 : (b :: bs).Sorted (fun a b => a.totalCombinations ≤ b.totalCombinations) :=
        (List.sorted_cons.mp hs).2
      have h02 : ∀ p ∈ b :: bs, 0 ≤ p.totalCombinations := fun p hp =>
        h0 p (List.mem_cons_of_mem _ hp)
      have hrec := ih hs2 h02 (by simp)
      simp only [List.map_cons, List.foldr_cons] at hrec ⊢
      rw [List.getLast_cons (by simp), hrec]
      have hmem : (b :: bs).getLast (by simp) ∈ b :: bs := List.getLast_mem _
      have hle := (List.sorted_cons.mp hs).1 _ hmem
      omega

/-! ## Per-codec and encoder-level roundtrip -/

theorem patternEncoder_roundtrip (P : PatternEncoder)
    (hpos : ∀ pos ∈ P.positions,
      pos.base = pos.chars.length ∧ pos.chars ≠ [] ∧ pos.chars.Nodup)
    (hcap : P.totalCombinations = combinedBase P.positions)
    (hsmall : trueCapacity P.positions < 2 ^ 63)
    (n : Nat) (hn : (n : Int) < P.totalCombinations) :
    ∃ w, P.Encode n = .ok w ∧ w.length = P.positions.length ∧
      P.Decode w = .ok (n : Int) := by
  have hstored : P.totalCombinations = (trueCapacity P.positions : Int) := by
    rw [hcap, combinedBase_eq_of_lt _ hsmall]
  have hnN : n < trueCapacity P.positions := by
    rw [hstored] at hn
    exact_mod_cast hn
  have hps' : ∀ pos ∈ P.positions.reverse,
      pos.base = pos.chars.length ∧ pos.chars ≠ [] ∧ pos.chars.Nodup := by
    intro pos hpos2
    exact hpos pos (List.mem_reverse.mp hpos2)
  have hcap' : trueCapacity P.positions.reverse < 2 ^ 63 := by
    rw [trueCapacity_reverse]
    exact hsmall
  have hn' : n < trueCapacity P.positions.reverse := by
    rw [trueCapacity_reverse]
    exact hnN
  obtain ⟨cs, henc, hlencs, hdec⟩ :=
    encode_decode_core P.positions.reverse hps' hcap' n hn'
  rw [List.reverse_reverse] at hdec
  refine ⟨cs.reverse, ?_, ?_, ?_⟩
  · unfold PatternEncoder.Encode
    rw [if_neg (not_le.mpr hn), henc]
  · simp only [List.length_reverse]
    rw [hlencs, List.length_reverse]
  · unfold PatternEncoder.Decode
    rw [if_neg (by simp [hlencs])]
    exact hdec

theorem newPhoneticEncoder_fields (pc : PhonidConfig) (E : PhoneticEncoder)
    (h : newPhoneticEncoder pc = .ok E) :
    ∃ pes, buildAllPatterns pc.Placeholders pc.Patterns = .ok pes ∧
      E.config = pc ∧ E.patterns = sortPatternEncoders pes := by
  unfold newPhoneticEncoder at h
  split at h
  · next pes hb =>
    cases h
    exact ⟨pes, hb, rfl, rfl⟩
  · cases h
  · cases h

theorem validated_built_good (p : List Char) (m : PlaceholderMap)
    (P : PatternEncoder) (hv : validatePattern p m = .ok ())
    (hb : buildPatternEncoder p m = .ok P) :
    ∀ pos ∈ P.positions,
      pos.base = pos.chars.length ∧ pos.chars ≠ [] ∧ pos.chars.Nodup := by
  obtain ⟨hpat, hbp, hcap, hlen⟩ := buildPatternEncoder_spec p m P hb
  obtain ⟨hmap, hposes⟩ := buildPositions_spec p m P.positions hbp
  have hsets := validatePattern_ok p m hv
  intro pos hpos
  obtain ⟨hlk, hbase, hne⟩ := hposes pos hpos
  refine ⟨hbase, hne, ?_⟩
  have hmem : (pos.placeholder, pos.chars) ∈ m := lookup_mem m _ _ hlk
  have hcount : 0 < p.count pos.placeholder := by
    have hin : pos.placeholder ∈ p := hmap ▸ List.mem_map_of_mem _ hpos
    exact List.count_pos_iff_mem.mpr hin
  have hchecked := validatePlaceholderSets_ok p m hsets pos.placeholder pos.chars
    hmem hcount
  exact (hasDuplicates_eq_false_iff pos.chars).mp hchecked.1

theorem NewPhoneticEncoder_good (pc : PhonidConfig) (E : PhoneticEncoder)
    (hE : NewPhoneticEncoder pc = .ok E) :
    ∀ pe ∈ E.patterns,
      (∀ pos ∈ pe.positions,
        pos.base = pos.chars.length ∧ pos.chars ≠ [] ∧ pos.chars.Nodup) ∧
      pe.totalCombinations = combinedBase pe.positions ∧
      pe.length = pe.positions.length := by
  unfold NewPhoneticEncoder at hE
  split at hE
  · next pc2 val heq =>
    obtain ⟨pes, hbuild, hcfg, hpats⟩ := newPhoneticEncoder_fields pc2 E hE
    have hloop : validatePatternsLoop pc2.Placeholders pc2.Patterns [] = .ok () := by
      have h1 : (pc.Validate).2 = .ok val := by rw [heq]
      have h2 : (pc.Validate).1 = pc2 := by rw [heq]
      cases val
      rw [← h1]
      unfold PhonidConfig.Validate
      unfold PhonidConfig.Validate at h2
      simp only at h2
      rw [h2]
    have hvalid := validatePatternsLoop_ok pc2.Placeholders pc2.Patterns [] hloop
    intro pe hpe
    have hpe2 : pe ∈ pes := by
      rw [hpats] at hpe
      exact (sortPatternEncoders_perm pes).mem_iff.mp hpe
    obtain ⟨p, hpmem, hbuildp⟩ := buildAllPatterns_mem _ _ _ hbuild pe hpe2
    obtain ⟨_, _, hcap, hlen⟩ := buildPatternEncoder_spec p pc2.Placeholders pe hbuildp
    exact ⟨validated_built_good p pc2.Placeholders pe (hvalid p hpmem) hbuildp,
      hcap, hlen⟩
  · cases hE
  · cases hE

/-- Claim C1 (amended): for every configuration accepted by
`NewPhoneticEncoder` whose patterns have pairwise distinct rune counts
and whose codec capacities (the products of the position bases) all stay
below `2 ^ 63` — so no capacity field is wrapped — and every `n` below
the capacity of the largest pattern, `Decode (Encode n)` succeeds and
returns `n`.  (The original claim over every validated configuration
fails twice: validation makes the pattern byte lengths distinct — Go
`len(p)` — while decoding dispatches on rune counts, and two patterns
with multi-byte class tags can have distinct byte lengths but equal rune
counts, see `C1_counterexample`; and an allowed 23-rune pattern can
overflow the `int` capacity field, after which `Encode` rejects values
below the true capacity.) -/
theorem C1_phonetic_roundtrip (pc : PhonidConfig) (E : PhoneticEncoder)
    (hE : NewPhoneticEncoder pc = .ok E)
    (hlens : (E.patterns.map PatternEncoder.length).Nodup)
    (hsmall : ∀ pe ∈ E.patterns, trueCapacity pe.positions < 2 ^ 63)
    (n : Nat) (hn : (n : Int) < largestCapacity E) :
    ∃ w, E.Encode n = .ok w ∧ E.Decode w = .ok (n : Int) := by
  have hgood := NewPhoneticEncoder_good pc E hE
  obtain ⟨q0, hq0mem, hq0⟩ :=
    lt_foldr_max PatternEncoder.totalCombinations E.patterns (n : Int)
      (Int.natCast_nonneg n) (by simpa [largestCapacity] using hn)
  cases hfind : E.patterns.find? (fun p => decide ((n : Int) < p.totalCombinations)) with
  | none =>
    exfalso
    have := List.find?_eq_none.mp hfind q0 hq0mem
    simp [hq0] at this
  | some q =>
    have hqmem := List.mem_of_find?_eq_some hfind
    have hqlt : (n : Int) < q.totalCombinations := by
      have := List.find?_some hfind
      simpa using this
    obtain ⟨hgoodq, hcapq, hlenq⟩ := hgood q hqmem
    obtain ⟨w, hwenc, hwlen, hwdec⟩ :=
      patternEncoder_roundtrip q hgoodq hcapq (hsmall q hqmem) n hqlt
    have hwlen2 : w.length = q.length := by rw [hwlen, hlenq]
    refine ⟨w, ?_, ?_⟩
    · simp only [PhoneticEncoder.Encode, hfind]
      exact hwenc
    · have hfind2 : E.patterns.find? (fun p => w.length == p.length) = some q := by
        apply find?_first_unique _ _ _ hqmem (by simp [hwlen2])
        intro b hb hpb
        have hbl : w.length = b.length := by simpa using hpb
        exact List.inj_on_of_nodup_map hlens hb hqmem (by rw [← hbl, hwlen2])
      simp only [PhoneticEncoder.Decode, hfind2]
      exact hwdec

/-! ## Concrete configurations and encoders used by witnesses and
counterexamples -/

/-- The `CVC` configuration of the encode test corpus
(`TestPhoneticEncoder_Encode`). -/
def cvcConfig : PhonidConfig :=
  { Patterns := ["CVC".toList],
    Placeholders := [('V', "aoi".toList), ('C', "bzk".toList)] }

/-- The codec `buildPatternEncoder` produces for `CVC` over
`cvcConfig.Placeholders`. -/
def cvcPattern : PatternEncoder :=
  { pattern := "CVC".toList,
    positions := [⟨'C', "bzk".toList, 3⟩, ⟨'V', "aoi".toList, 3⟩,
                  ⟨'C', "bzk".toList, 3⟩],
    totalCombinations := 27, length := 3 }

/-- The encoder `NewPhoneticEncoder` produces for `cvcConfig`. -/
def cvcEncoder : PhoneticEncoder :=
  { config := cvcConfig, patterns := [cvcPattern] }

/-- A validated two-pattern configuration whose patterns have multi-byte
class tags: byte lengths 5 and 7 (both allowed and distinct) but rune
counts 4 and 4. -/
def ceConfig : PhonidConfig :=
  { Patterns := ["ΩCVV".toList, "日ΩCV".toList],
    Placeholders := [('C', "bdk".toList), ('V', "ae".toList),
                     ('Ω', "xw".toList), ('日', "npq".toList)] }

/-- The value of `Decode (Encode 30)` on the encoder built from
`ceConfig` (`panic` would mark a failed build or encode). -/
def ceRoundtrip : GoResult CodecErr Int :=
  match NewPhoneticEncoder ceConfig with
  | .ok E =>
    match E.Encode 30 with
    | .ok w => E.Decode w
    | _ => .panic
  | _ => .panic

/-- The capacity field of the largest pattern of the encoder built from
`ceConfig`. -/
def ceLargestCapacity : Int :=
  match NewPhoneticEncoder ceConfig with
  | .ok E => largestCapacity E
  | _ => 0

/-- Witness for `C1_phonetic_roundtrip` on the `CVC` configuration at
`n = 5`. -/
theorem C1_phonetic_roundtrip_witness :
    NewPhoneticEncoder cvcConfig = .ok cvcEncoder ∧
      ∃ w, cvcEncoder.Encode 5 = .ok w ∧
        cvcEncoder.Decode w = .ok ((5 : Nat) : Int) :=
  ⟨by decide, C1_phonetic_roundtrip cvcConfig cvcEncoder (by decide) (by decide)
    (by decide) 5 (by decide)⟩

set_option maxRecDepth 8192 in
/-- Counterexample to claim C1 as stated: `ceConfig` passes validation
(the build succeeds, which validates first), `30` is below the capacity
of the largest pattern (36), yet `Decode (Encode 30)` fails — the
5-byte/4-rune pattern is tried first when decoding the 4-rune word of
the 7-byte/4-rune pattern, and rejects its first rune. -/
theorem C1_counterexample :
    (NewPhoneticEncoder ceConfig).isOk = true ∧ 30 < ceLargestCapacity ∧
      ceRoundtrip = .error (.invalidRune 'q') := by
  decide

/-- Claim C4 (amended): on an encoder built by `newPhoneticEncoder`
whose codec capacities (the products of the position bases) all stay
below `2 ^ 63` — so the stored capacity fields are not wrapped —
`Encode n` delegates to a pattern codec of minimal capacity among those
whose capacity strictly exceeds `n`, and when no pattern's capacity
exceeds `n` (and the pattern list is not empty, which the
"multi-pattern" premise grants — on an empty pattern list this code
path panics instead), it fails with an out-of-range error citing the
largest capacity minus one.  (The original claim without the overflow
restriction fails: the dispatch comparisons and the cited maximum use
the wrapped signed capacity fields, and a validated 23-rune pattern can
wrap its field to `0`, after which `Encode 0` errors instead of
delegating to the codec whose capacity exceeds `0`, see
`C4_counterexample`.) -/
theorem C4_encode_dispatch (pc : PhonidConfig) (E : PhoneticEncoder)
    (hE : newPhoneticEncoder pc = .ok E)
    (hsmall : ∀ pe ∈ E.patterns, trueCapacity pe.positions < 2 ^ 63)
    (n : Nat) :
    ((∃ q ∈ E.patterns, (n : Int) < q.totalCombinations) →
      ∃ p ∈ E.patterns, (n : Int) < p.totalCombinations ∧
        (∀ q ∈ E.patterns, (n : Int) < q.totalCombinations →
          p.totalCombinations ≤ q.totalCombinations) ∧
        E.Encode n = p.Encode n) ∧
    ((∀ q ∈ E.patterns, q.totalCombinations ≤ (n : Int)) → E.patterns ≠ [] →
      E.Encode n = .error (.outOfRange n (largestCapacity E - 1))) := by
  obtain ⟨pes, hbuild, hcfg, hpats⟩ := newPhoneticEncoder_fields pc E hE
  have hstored : ∀ pe ∈ E.patterns,
      pe.totalCombinations = (trueCapacity pe.positions : Int) := by
    intro pe hpe
    have hpe2 : pe ∈ pes := by
      rw [hpats] at hpe
      exact (sortPatternEncoders_perm pes).mem_iff.mp hpe
    obtain ⟨p, hpm, hbp⟩ := buildAllPatterns_mem _ _ _ hbuild pe hpe2
    rw [(buildPatternEncoder_spec _ _ _ hbp).2.2.1,
      combinedBase_eq_of_lt _ (hsmall pe hpe)]
  have hnonneg : ∀ p ∈ E.patterns, 0 ≤ p.totalCombinations := by
    intro p hp
    rw [hstored p hp]
    exact Int.natCast_nonneg _
  have hsorted : E.patterns.Sorted
      (fun a b => a.totalCombinations ≤ b.totalCombinations) := by
    rw [hpats]
    exact sortPatternEncoders_sorted pes
  constructor
  · rintro ⟨q0, hq0m, hq0⟩
    cases hfind : E.patterns.find? (fun p => decide ((n : Int) < p.totalCombinations)) with
    | none =>
      exfalso
      have := List.find?_eq_none.mp hfind q0 hq0m
      simp [hq0] at this
    | some p =>
      have hpm := List.mem_of_find?_eq_some hfind
      have hplt : (n : Int) < p.totalCombinations := by
        have := List.find?_some hfind
        simpa using this
      refine ⟨p, hpm, hplt, ?_, by simp only [PhoneticEncoder.Encode, hfind]⟩
      intro q hq hqlt
      obtain ⟨l₁, l₂, hsplit, hfail⟩ := find?_split _ _ _ hfind
      rw [hsplit] at hq
      rcases List.mem_append.mp hq with h1 | h2
      · exfalso
        have := hfail q h1
        simp [hqlt] at this
      · rcases List.mem_cons.mp h2 with rfl | h3
        · exact le_refl _
        · have hs2 : (p :: l₂).Sorted
              (fun a b => a.totalCombinations ≤ b.totalCombinations) := by
            rw [hsplit] at hsorted
            exact hsorted.sublist (List.sublist_append_right l₁ (p :: l₂))
          exact List.rel_of_pairwise_cons hs2 h3
  · intro hall hne
    cases hfind : E.patterns.find? (fun p => decide ((n : Int) < p.totalCombinations)) with
    | some p =>
      exfalso
      have hpm := List.mem_of_find?_eq_some hfind
      have hple := hall p hpm
      have hplt : (n : Int) < p.totalCombinations := by
        have := List.find?_some hfind
        simpa using this
      omega
    | none =>
      have hgl : E.patterns.getLast? = some (E.patterns.getLast hne) :=
        List.getLast?_eq_getLast _ hne
      have hmax : largestCapacity E = (E.patterns.getLast hne).totalCombinations :=
        sorted_getLast_eq_max E.patterns hsorted hnonneg hne
      have hlastmem : E.patterns.getLast hne ∈ E.patterns := List.getLast_mem _
      have hlast63 : (E.patterns.getLast hne).totalCombinations < 2 ^ 63 := by
        rw [hstored _ hlastmem]
        exact_mod_cast hsmall _ hlastmem
      have hlast0 : 0 ≤ (E.patterns.getLast hne).totalCombinations :=
        hnonneg _ hlastmem
      simp only [PhoneticEncoder.Encode, hfind, hgl, hmax]
      rw [wrap64_eq_self _ (by omega) (by omega)]

/-- The encoder `newPhoneticEncoder` produces for the two-pattern
configuration used as the dispatch witness (capacities 18 and 108). -/
def c4Config : PhonidConfig :=
  { Patterns := ["CVC".toList, "CVCVC".toList],
    Placeholders := [('V', "ae".toList), ('C', "bdk".toList)] }

/-- The codec for `CVC` over `c4Config.Placeholders`. -/
def c4Small : PatternEncoder :=
  { pattern := "CVC".toList,
    positions := [⟨'C', "bdk".toList, 3⟩, ⟨'V', "ae".toList, 2⟩,
                  ⟨'C', "bdk".toList, 3⟩],
    totalCombinations := 18, length := 3 }

/-- The codec for `CVCVC` over `c4Config.Placeholders`. -/
def c4Large : PatternEncoder :=
  { pattern := "CVCVC".toList,
    positions := [⟨'C', "bdk".toList, 3⟩, ⟨'V', "ae".toList, 2⟩,
                  ⟨'C', "bdk".toList, 3⟩, ⟨'V', "ae".toList, 2⟩,
                  ⟨'C', "bdk".toList, 3⟩],
    totalCombinations := 108, length := 5 }

/-- The encoder for `c4Config`. -/
def c4Encoder : PhoneticEncoder :=
  { config := c4Config, patterns := [c4Small, c4Large] }

/-- Witness for `C4_encode_dispatch` at `n = 50` (falls to the second
codec) on the two-pattern encoder. -/
theorem C4_encode_dispatch_witness :
    newPhoneticEncoder c4Config = .ok c4Encoder ∧
      ((∃ q ∈ c4Encoder.patterns, ((50 : Nat) : Int) < q.totalCombinations) →
        ∃ p ∈ c4Encoder.patterns, ((50 : Nat) : Int) < p.totalCombinations ∧
          (∀ q ∈ c4Encoder.patterns, ((50 : Nat) : Int) < q.totalCombinations →
            p.totalCombinations ≤ q.totalCombinations) ∧
          c4Encoder.Encode 50 = p.Encode 50) ∧
      ((∀ q ∈ c4Encoder.patterns, q.totalCombinations ≤ ((50 : Nat) : Int)) →
        c4Encoder.patterns ≠ [] →
        c4Encoder.Encode 50 = .error (.outOfRange 50 (largestCapacity c4Encoder - 1))) :=
  ⟨by decide, C4_encode_dispatch c4Config c4Encoder (by decide) (by decide) 50⟩

/-- A configuration the validator accepts whose capacity overflows Go
`int`: the allowed 23-rune pattern `V` followed by 22 `C`s over a
2-vowel class and an 8-consonant class has true capacity
`2 * 8 ^ 22 = 2 ^ 67`, and the wrapping capacity loop stores
`2 ^ 67 mod 2 ^ 64 = 0` in `totalCombinations`. -/
def ovfConfig : PhonidConfig :=
  { Patterns := ["VCCCCCCCCCCCCCCCCCCCCCC".toList],
    Placeholders := [('V', "ae".toList), ('C', "bcdfghjk".toList)] }

/-- The codec built for the overflowing pattern: the stored capacity
field is the wrapped value `0`. -/
def ovfPattern : PatternEncoder :=
  { pattern := "VCCCCCCCCCCCCCCCCCCCCCC".toList,
    positions := ⟨'V', "ae".toList, 2⟩ ::
      List.replicate 22 ⟨'C', "bcdfghjk".toList, 8⟩,
    totalCombinations := 0, length := 23 }

/-- The encoder built from `ovfConfig`. -/
def ovfEncoder : PhoneticEncoder :=
  { config := ovfConfig, patterns := [ovfPattern] }

set_option maxRecDepth 8192 in
/-- Counterexample to claim C4 as stated: `ovfConfig` passes validation
and builds a single codec whose capacity — the product of the position
bases — is `2 ^ 67`, which exceeds `n = 0`; yet `Encode 0` does not
delegate to that codec: the wrapped capacity field is `0`, the signed
comparison `0 < 0` fails, and the encoder returns the out-of-range
error citing `0 - 1 = -1` instead of the largest capacity minus one. -/
theorem C4_counterexample :
    (ovfConfig.Validate).2 = .ok () ∧
      newPhoneticEncoder ovfConfig = .ok ovfEncoder ∧
      trueCapacity ovfPattern.positions = 2 ^ 67 ∧
      ovfEncoder.Encode 0 = .error (.outOfRange 0 (-1)) := by
  decide

/-- Claim C8 (amended): every constructible pattern codec whose
capacity — the product of the position bases — stays below `2 ^ 63`
encodes `0` as the word made of the first code point of each position's
class, and `capacity - 1` as the word made of the last code points.
(Without the overflow restriction the claim fails: a validated 23-rune
pattern can wrap its stored capacity field to `0`, after which
`Encode 0` returns an out-of-range error instead of the all-first-chars
word, see `C8_counterexample`.  The validated-configuration premise is
otherwise immaterial: the property holds for every codec
`buildPatternEncoder` returns.) -/
theorem C8_boundary_words (pat : List Char) (m : PlaceholderMap)
    (P : PatternEncoder) (hb : buildPatternEncoder pat m = .ok P)
    (hsmall : trueCapacity P.positions < 2 ^ 63) :
    P.Encode 0 = .ok (P.positions.map (fun pos => pos.chars.headI)) ∧
      P.Encode (trueCapacity P.positions - 1) =
        .ok (P.positions.map (fun pos => pos.chars.getLastD 'a')) := by
  obtain ⟨hpat, hbp, hcap, hlen⟩ := buildPatternEncoder_spec pat m P hb
  obtain ⟨hmap, hposes⟩ := buildPositions_spec pat m P.positions hbp
  have hstored : P.totalCombinations = (trueCapacity P.positions : Int) := by
    rw [hcap, combinedBase_eq_of_lt _ hsmall]
  have hgood : ∀ pos ∈ P.positions.reverse,
      pos.base = pos.chars.length ∧ pos.chars ≠ [] := by
    intro pos hp
    have hp2 := hposes pos (List.mem_reverse.mp hp)
    exact ⟨hp2.2.1, hp2.2.2⟩
  have hcap1 : 0 < trueCapacity P.positions := by
    simp only [trueCapacity]
    apply List.prod_pos
    intro b hbm
    obtain ⟨q, hq, rfl⟩ := List.mem_map.mp hbm
    rw [(hposes q hq).2.1]
    exact List.length_pos.mpr (hposes q hq).2.2
  constructor
  · have henc := encodeDigits_zero P.positions.reverse hgood
    unfold PatternEncoder.Encode
    rw [if_neg (by rw [hstored]; omega)]
    simp only [henc]
    rw [← List.map_reverse, List.reverse_reverse]
  · have henc := encodeDigits_last P.positions.reverse hgood
    rw [List.map_reverse, List.prod_reverse] at henc
    have henc2 : encodeDigits P.positions.reverse (trueCapacity P.positions - 1) =
        some (P.positions.reverse.map (fun pos => pos.chars.getLastD 'a')) := henc
    unfold PatternEncoder.Encode
    rw [if_neg (by rw [hstored]; omega)]
    simp only [henc2]
    rw [← List.map_reverse, List.reverse_reverse]

/-- Witness for `C8_boundary_words`: the `CVC` codec encodes `0` as
`bab` and `26` as `kik`. -/
theorem C8_boundary_words_witness :
    buildPatternEncoder "CVC".toList cvcConfig.Placeholders = .ok cvcPattern ∧
      trueCapacity cvcPattern.positions < 2 ^ 63 ∧
      cvcPattern.Encode 0 =
        .ok (cvcPattern.positions.map (fun pos => pos.chars.headI)) ∧
      cvcPattern.Encode (trueCapacity cvcPattern.positions - 1) =
        .ok (cvcPattern.positions.map (fun pos => pos.chars.getLastD 'a')) :=
  ⟨by decide, by decide,
    C8_boundary_words "CVC".toList cvcConfig.Placeholders cvcPattern
      (by decide) (by decide)⟩

set_option maxRecDepth 8192 in
/-- Counterexample to claim C8 as stated: `ovfConfig` passes validation,
its 23-rune pattern builds a codec whose capacity (product of the
position bases) is `2 ^ 67` but whose stored capacity field wrapped to
`0`, and `Encode 0` returns the out-of-range error citing `-1` instead
of the all-first-chars word. -/
theorem C8_counterexample :
    (ovfConfig.Validate).2 = .ok () ∧
      buildPatternEncoder "VCCCCCCCCCCCCCCCCCCCCCC".toList ovfConfig.Placeholders
        = .ok ovfPattern ∧
      ovfPattern.totalCombinations = 0 ∧
      trueCapacity ovfPattern.positions = 2 ^ 67 ∧
      ovfPattern.Encode 0 = .error (.patternOutOfRange 0 (-1)) := by
  decide

/-- Claim C3: when two of the built pattern codecs have equal
capacities — equal products of their position bases, which wrap to
equal stored fields — the (spec-modelled) current-generation
constructor rejects the configuration with the duplicate-capacity
error. -/
theorem C3_duplicate_capacity (pc : PhonidConfig) (pes : List PatternEncoder)
    (P1 P2 : PatternEncoder)
    (hbuild : buildAllPatterns pc.Placeholders pc.Patterns = .ok pes)
    (h1 : P1 ∈ pes) (h2 : P2 ∈ pes) (hne : P1 ≠ P2)
    (heq : trueCapacity P1.positions = trueCapacity P2.positions) :
    newPhoneticEncoderChecked pc = .error .duplicateCapacity := by
  have hstored : P1.totalCombinations = P2.totalCombinations := by
    obtain ⟨p1, hp1, hb1⟩ := buildAllPatterns_mem _ _ _ hbuild P1 h1
    obtain ⟨p2, hp2, hb2⟩ := buildAllPatterns_mem _ _ _ hbuild P2 h2
    rw [(buildPatternEncoder_spec _ _ _ hb1).2.2.1,
      (buildPatternEncoder_spec _ _ _ hb2).2.2.1,
      combinedBase_eq_wrap, combinedBase_eq_wrap, heq]
  have hdup : hasDuplicateCap
      ((sortPatternEncoders pes).map PatternEncoder.totalCombinations) = true := by
    rw [hasDuplicateCap_iff]
    intro hnd
    have hperm : List.Perm
        ((sortPatternEncoders pes).map PatternEncoder.totalCombinations)
        (pes.map PatternEncoder.totalCombinations) :=
      (sortPatternEncoders_perm pes).map _
    have hnd2 : (pes.map PatternEncoder.totalCombinations).Nodup :=
      hperm.nodup_iff.mp hnd
    exact hne (List.inj_on_of_nodup_map hnd2 h1 h2 hstored)
  simp only [newPhoneticEncoderChecked, hbuild, hdup]
  rfl

/-- The duplicate-capacity configuration of the test corpus
(`Test_newPhoneticEncoder`, case "different pattern lengths with
identical total combinations"): `CVC` and `CVCXX` both have capacity
27. -/
def dupCapConfig : PhonidConfig :=
  { Patterns := ["CVC".toList, "CVCXX".toList],
    Placeholders := [('V', "aeo".toList), ('C', "bdk".toList), ('X', "g".toList)] }

/-- The codec for `CVC` over `dupCapConfig.Placeholders`. -/
def dupCapP1 : PatternEncoder :=
  { pattern := "CVC".toList,
    positions := [⟨'C', "bdk".toList, 3⟩, ⟨'V', "aeo".toList, 3⟩,
                  ⟨'C', "bdk".toList, 3⟩],
    totalCombinations := 27, length := 3 }

/-- The codec for `CVCXX` over `dupCapConfig.Placeholders`. -/
def dupCapP2 : PatternEncoder :=
  { pattern := "CVCXX".toList,
    positions := [⟨'C', "bdk".toList, 3⟩, ⟨'V', "aeo".toList, 3⟩,
                  ⟨'C', "bdk".toList, 3⟩, ⟨'X', "g".toList, 1⟩,
                  ⟨'X', "g".toList, 1⟩],
    totalCombinations := 27, length := 5 }

/-- Witness for `C3_duplicate_capacity` on the test corpus
configuration. -/
theorem C3_duplicate_capacity_witness :
    newPhoneticEncoderChecked dupCapConfig = .error .duplicateCapacity :=
  C3_duplicate_capacity dupCapConfig [dupCapP1, dupCapP2] dupCapP1 dupCapP2
    (by decide) (by decide) (by decide) (by decide) (by decide)

/-- Claim C7 (amended): validation fails whenever the vowel class `V`
referenced by some pattern has fewer than `MinCharsForVowel = 2`
members; no other class carries a minimum-size requirement (the only
remaining size constraint is the pattern-level "some complement class
with at least 3 members"), see `C7_counterexample`. -/
theorem C7_vowel_min_size (pc : PhonidConfig) (p : List Char) (vs : RuneSet)
    (hp : p ∈ (pc.Validate).1.Patterns) (hv : 'V' ∈ p)
    (hvs : (pc.Validate).1.Placeholders.lookup 'V' = some vs)
    (hsmall : vs.length < MinCharsForVowel) :
    (pc.Validate).2 ≠ .ok () := by
  intro hok
  have hloop : validatePatternsLoop (pc.Validate).1.Placeholders
      (pc.Validate).1.Patterns [] = .ok () := hok
  have hpat := validatePatternsLoop_ok _ _ [] hloop p hp
  have hsets := validatePattern_ok _ _ hpat
  have hmem : ('V', vs) ∈ (pc.Validate).1.Placeholders :=
    lookup_mem _ _ _ hvs
  have hcount : 0 < p.count 'V' := List.count_pos_iff_mem.mpr hv
  have hms := (validatePlaceholderSets_ok _ _ hsets 'V' vs hmem hcount).2
  unfold validateMinimumSize at hms
  rw [if_pos ⟨rfl, hsmall⟩] at hms
  cases hms

/-- The singleton-class configuration of the config test corpus
(`TestConfig_Validate`, case "valid config"): pattern `CXVXC` with the
one-member class `X`. -/
def c7Config : PhonidConfig :=
  { Patterns := ["CXVXC".toList],
    Placeholders := [('C', "bcd".toList), ('V', "ae".toList), ('X', ".".toList)] }

/-- Counterexample to claim C7 as stated: `c7Config` passes validation
although the class `X`, referenced twice by its pattern, has a single
member. -/
theorem C7_counterexample :
    (c7Config.Validate).2 = .ok () ∧
      c7Config.Placeholders.lookup 'X' = some ['.'] ∧
      'X' ∈ "CXVXC".toList ∧ (1 : Nat) < 2 := by
  decide

/-- A configuration whose vowel class is a singleton. -/
def c7SmallVowelConfig : PhonidConfig :=
  { Patterns := ["CVC".toList],
    Placeholders := [('C', "bcd".toList), ('V', "a".toList)] }

/-- Witness for `C7_vowel_min_size` on the singleton-vowel
configuration. -/
theorem C7_vowel_min_size_witness :
    (c7SmallVowelConfig.Validate).2 ≠ .ok () :=
  C7_vowel_min_size c7SmallVowelConfig "CVC".toList "a".toList (by decide)
    (by decide) (by decide) (by decide)

/-- A config whose pattern list is empty and stays empty through the
internal constructor (the tests build exactly this shape). -/
def emptyPatConfig : PhonidConfig :=
  { Patterns := [], Placeholders := [('C', "bcd".toList), ('V', "ae".toList)] }

/-- The encoder `newPhoneticEncoder` produces for `emptyPatConfig`. -/
def emptyPatEncoder : PhoneticEncoder :=
  { config := emptyPatConfig, patterns := [] }

/-- Claim C9: the internal constructor accepts an empty pattern list
(as the test corpus expects), and `Encode` on the resulting encoder
panics — the out-of-range error path indexes
`e.patterns[len(e.patterns)-1]` on an empty slice — instead of
returning an explicit error. -/
theorem C9_empty_encoder_panics :
    newPhoneticEncoder emptyPatConfig = .ok emptyPatEncoder ∧
      emptyPatEncoder.Encode 0 = .panic := by
  decide

/-- Claim C10 (amended): `PhonidConfig.Validate` mutates its receiver
exactly by substituting the documented defaults for an empty pattern
list or an empty placeholder map; when both are nonempty the config
value is unchanged.  The claim as stated — no mutation even on empty
fields — fails, see `C10_counterexample`. -/
theorem C10_validate_pure_when_nonempty (pc : PhonidConfig)
    (h1 : pc.Patterns ≠ []) (h2 : pc.Placeholders ≠ []) :
    (pc.Validate).1 = pc := by
  unfold PhonidConfig.Validate
  simp only [withDefaultPatterns, withDefaultPlaceholders,
    List.isEmpty_iff, if_neg h1, if_neg h2]

/-- Counterexample to claim C10 as stated: validating the empty config
replaces the empty pattern list (and placeholder map) with the
documented defaults in place, so the config value changes. -/
theorem C10_counterexample :
    (PhonidConfig.Validate { Patterns := [], Placeholders := [] }).1 ≠
      ({ Patterns := [], Placeholders := [] } : PhonidConfig) := by
  decide

/-- Witness for `C10_validate_pure_when_nonempty` on the `CVC`
configuration. -/
theorem C10_validate_pure_witness :
    (cvcConfig.Validate).1 = cvcConfig :=
  C10_validate_pure_when_nonempty cvcConfig (by decide) (by decide)

end Phonid
